import Mathlib

/-!
Verification of the FileFocus group model against its implementation.

The development shallowly embeds the three layers the specification covers:

* `Group` (src/Group.ts): a mutable tree node.  JavaScript objects are
  modelled by an object heap `HeapF` mapping group ids to `GroupObj`
  records; a method that mutates several objects becomes a function from
  heaps to heaps.  Group ids are unique across live objects (an invariant
  the GroupManager maintains), so a heap keyed by id faithfully represents
  the object graph.
* `GroupManager` (src/GroupManager.ts): explicit state (`Manager`)
  holding the heap, the flattened registry `root`, the `rootGroups` set,
  the id-to-provider routing table `storageMap` and the registered
  providers.  Calls into a storage provider (`saveGroup`, `deleteGroupId`)
  are recorded in effect traces `saved` / `deleted`.
* `StateStorage` (src/storage/StateStorage.ts): a typed key-value
  `Storage`, the nested `GroupRecord` format, save/load and the guarded
  one-time migration.

JavaScript `Map` semantics are modelled explicitly: `set` keeps the
position of an existing key and appends a new one, `delete` removes it.
Unbounded structural recursion over the object graph (which terminates in
TypeScript because the forest is acyclic) takes an explicit fuel argument.
-/

namespace FileFocus

/-- A VS Code URI as the group model observes it: its normalized filesystem
path (`fsPath`) and its full string rendering (`toString`). -/
structure Uri where
  fsPath : String
  uriStr : String
deriving DecidableEq, Repr

abbrev GroupId := String

/-- The mutable state of one `Group` object (src/Group.ts).  The group's id
is the key under which the object lives in the heap; `childGroups` and
`parentGroup` hold ids of other objects, mirroring object references. -/
structure GroupObj where
  name : String
  readonly : Bool
  resources : List Uri
  childGroups : List GroupId
  parentGroup : Option GroupId
deriving DecidableEq, Repr

/-- A freshly constructed `new Group(id)`: empty name, writable, no
resources, no children, no parent. -/
def GroupObj.fresh : GroupObj :=
  { name := "", readonly := false, resources := [], childGroups := [], parentGroup := none }

/-- The object heap: live `Group` objects addressed by their id. -/
def HeapF : Type := GroupId → Option GroupObj

/-- Install (or overwrite) the object stored at `id`. -/
def hInsert (h : HeapF) (id : GroupId) (g : GroupObj) : HeapF :=
  fun x => if x = id then some g else h x

/-- Mutate the object stored at `id` in place, if present. -/
def hUpdate (h : HeapF) (id : GroupId) (f : GroupObj → GroupObj) : HeapF :=
  fun x => if x = id then (h x).map f else h x

/-- The empty heap. -/
def hEmpty : HeapF := fun _ => none

/-! ### Group: resource operations (src/Group.ts)

These methods only touch `this._resource`, so they are functions on a
single `GroupObj`. -/

/-- `Group._resourceContains`: membership by normalized path (`fsPath`). -/
def resourceContains (g : GroupObj) (uri : Uri) : Bool :=
  g.resources.any (fun v => v.fsPath == uri.fsPath)

/-- `Group.addResource`: no-op when a resource with the same `fsPath` is
already present, otherwise append. -/
def addResource (g : GroupObj) (uri : Uri) : GroupObj :=
  if resourceContains g uri then g
  else { g with resources := g.resources ++ [uri] }

/-- `Group.removeResource`: find the first entry whose full URI string
equals the argument's and splice it out; no-op when absent. -/
def removeResource (g : GroupObj) (uri : Uri) : GroupObj :=
  match g.resources.findIdx? (fun item => item.uriStr == uri.uriStr) with
  | none => g
  | some i => { g with resources := g.resources.eraseIdx i }

/-- `Group.replaceResource`: `indexOf` the entry equal to `src` and
overwrite that slot with `dst`.  When `src` is absent, `indexOf` yields -1
and the assignment to slot -1 leaves the array's elements unchanged, so
the call is a no-op on the resource list. -/
def replaceResource (g : GroupObj) (src dst : Uri) : GroupObj :=
  match g.resources.findIdx? (fun item => item == src) with
  | none => g
  | some i => { g with resources := g.resources.set i dst }

/-- `Group.clearResources`. -/
def clearResources (g : GroupObj) : GroupObj :=
  { g with resources := [] }

/-! ### Group: child-group operations (src/Group.ts)

These methods mutate several objects (the parent's child list and the
child's parent reference), so they are heap transformers. -/

/-- `Group._childGroupContains`: membership of a direct child by id. -/
def childGroupContains (g : GroupObj) (cid : GroupId) : Bool :=
  g.childGroups.any (fun c => c == cid)

/-- `Group.removeChildGroup`, invoked as `pid.removeChildGroup(cid)`:
find the direct child by id, splice it out and clear the argument's
parent reference; no-op when `cid` is not a direct child. -/
def removeChildGroup (h : HeapF) (pid cid : GroupId) : HeapF :=
  match h pid with
  | none => h
  | some p =>
    match p.childGroups.findIdx? (fun item => item == cid) with
    | none => h
    | some i =>
      let h1 := hUpdate h pid (fun g => { g with childGroups := g.childGroups.eraseIdx i })
      hUpdate h1 cid (fun g => { g with parentGroup := none })

/-- `Group.addChildGroup`, invoked as `pid.addChildGroup(cid)`: no-op when
`cid` is already a direct child; otherwise detach `cid` from its previous
parent (if any), append it to `pid`'s children and set its parent
reference to `pid`. -/
def addChildGroup (h : HeapF) (pid cid : GroupId) : HeapF :=
  match h pid, h cid with
  | some p, some c =>
    if childGroupContains p cid then h
    else
      let h1 := match c.parentGroup with
        | some op => removeChildGroup h op cid
        | none => h
      let h2 := hUpdate h1 pid (fun g => { g with childGroups := g.childGroups ++ [cid] })
      hUpdate h2 cid (fun g => { g with parentGroup := some pid })
  | _, _ => h

/-- `Group.removeChildGroupById`. -/
def removeChildGroupById (h : HeapF) (pid : GroupId) (cid : GroupId) : HeapF :=
  removeChildGroup h pid cid

/-- `Group.clearChildGroups`: clear every direct child's parent reference
and empty the child list. -/
def clearChildGroups (h : HeapF) (pid : GroupId) : HeapF :=
  match h pid with
  | none => h
  | some p =>
    let h1 := p.childGroups.foldl
      (fun hh c => hUpdate hh c (fun g => { g with parentGroup := none })) h
    hUpdate h1 pid (fun g => { g with childGroups := [] })

/-- `Group.getAllChildGroups`: pre-order flattened list of every
descendant (not including self).  The TypeScript recursion is unbounded;
`fuel` bounds the recursion depth and is irrelevant once it exceeds the
depth of the (acyclic) subtree. -/
def getAllChildGroups (h : HeapF) : Nat → GroupId → List GroupId
  | 0, _ => []
  | fuel + 1, gid =>
    match h gid with
    | none => []
    | some g => g.childGroups.flatMap (fun c => c :: getAllChildGroups h fuel c)

/-- `Group.getAllResources`: this group's resources followed, pre-order,
by every descendant's. -/
def getAllResources (h : HeapF) : Nat → GroupId → List Uri
  | 0, _ => []
  | fuel + 1, gid =>
    match h gid with
    | none => []
    | some g => g.resources ++ g.childGroups.flatMap (fun c => getAllResources h fuel c)

/-! ### JavaScript Map semantics

`root` and `rootGroups` are JavaScript `Map`s whose values are always the
heap object of the key, so they are modelled as id lists in insertion
order; `storageMap` keeps its string values explicitly. -/

/-- `Map.set` on a key set: keep the position of an existing key, append a
new one. -/
def mapSet (l : List GroupId) (k : GroupId) : List GroupId :=
  if l.contains k then l else l ++ [k]

/-- `Map.set` on an association list: replace an existing key in place,
append a new one. -/
def amSet : List (GroupId × String) → GroupId → String → List (GroupId × String)
  | [], k, v => [(k, v)]
  | kv :: rest, k, v => if kv.1 = k then (k, v) :: rest else kv :: amSet rest k v

/-- `Map.get` on an association list. -/
def amGet (l : List (GroupId × String)) (k : GroupId) : Option String :=
  (l.find? (fun p => p.1 == k)).map (fun p => p.2)

/-- `Map.delete` on an association list. -/
def amDelete (l : List (GroupId × String)) (k : GroupId) : List (GroupId × String) :=
  l.filter (fun p => p.1 != k)

/-- Truthiness of an optional string parameter: `undefined` and the empty
string are falsy. -/
def jsTruthy : Option String → Bool
  | none => false
  | some s => !s.isEmpty

/-! ### GroupManager (src/GroupManager.ts) -/

/-- Modelled from the spec: `GroupManager.makeGroupId` derives a group id
from its name via a version-5 UUID over a fixed namespace constant (the
`uuid` package is not part of the repository sources).  The spec requires
the derivation to be deterministic and name-injective ("same name ⇒ same
id, always"; distinct names yield distinct ids), which the model realises
by tagging the name with the namespace constant. -/
def makeGroupId (name : String) : GroupId :=
  "uuidv5:cc51e20a-7c32-434c-971f-5b3ea332deaa:" ++ name

/-- A registered storage provider: its id and the data its
`loadRootNodes` returns, given as the ids of the returned root groups plus
the object graph backing them (fresh objects, with full subtrees). -/
structure Provider where
  id : String
  loadRoots : List GroupId
  loadHeap : HeapF

/-- The state of a `GroupManager` plus the trace of provider calls it has
issued.  `saved` records `provider.saveGroup(group)` calls and `deleted`
records `provider.deleteGroupId(id)` calls, each as (provider id, group
id), in call order. -/
structure Manager where
  heap : HeapF
  root : List GroupId
  rootGroups : List GroupId
  storageMap : List (GroupId × String)
  providers : List Provider
  deleted : List (String × GroupId)
  saved : List (String × GroupId)

/-- `this.root.get(gid)`: the object of a registered group. -/
def rootGet (m : Manager) (gid : GroupId) : Option GroupObj :=
  if m.root.contains gid then m.heap gid else none

/-- `this._storageProvider.get(pid)`. -/
def getProvider (m : Manager) (pid : String) : Option Provider :=
  m.providers.find? (fun P => P.id == pid)

/-- `GroupManager.saveGroup`: look up the provider routed for the group's
id and, when found, delegate persistence to it (recorded in the `saved`
trace); silently a no-op otherwise. -/
def saveGroupM (m : Manager) (gid : GroupId) : Manager :=
  match getProvider m ((amGet m.storageMap gid).getD "") with
  | some P => { m with saved := m.saved ++ [(P.id, gid)] }
  | none => m

/-- `GroupManager.addGroup(group, storageProviderId, parentGroupId?)`.
The caller passes an already-constructed `Group` object; in the heap model
the object is the entry at `gid`.  When a truthy `parentGroupId` resolves,
the group is attached as its child; when `parentGroupId` is absent the
group is put into `rootGroups`; in every case it is registered in `root`
and `storageMap` and then saved. -/
def addGroup (m : Manager) (gid : GroupId) (storageProviderId : String)
    (parentGroupId : Option String) : Manager :=
  let m1 :=
    if jsTruthy parentGroupId then
      match rootGet m (parentGroupId.getD "") with
      | some _ => { m with heap := addChildGroup m.heap (parentGroupId.getD "") gid }
      | none => m
    else
      { m with rootGroups := mapSet m.rootGroups gid }
  let m2 := { m1 with root := mapSet m1.root gid,
                      storageMap := amSet m1.storageMap gid storageProviderId }
  saveGroupM m2 gid

/-- `GroupManager.removeGroup(id)`: resolve the group (no-op when
unknown), detach it from its parent or the root set, then delete every
descendant and finally the group itself from `root`, `storageMap` and,
when the routed provider is registered, from persisted storage.  `fuel`
bounds the descendant recursion (see `getAllChildGroups`). -/
def removeGroup (m : Manager) (fuel : Nat) (gid : GroupId) : Manager :=
  match rootGet m gid with
  | none => m
  | some g =>
    let provOpt := getProvider m ((amGet m.storageMap gid).getD "")
    let m1 :=
      match g.parentGroup with
      | some p => { m with heap := removeChildGroup m.heap p gid }
      | none => { m with rootGroups := m.rootGroups.erase gid }
    let kids := getAllChildGroups m1.heap fuel gid
    let m2 := kids.foldl
      (fun mm cid =>
        { mm with root := mm.root.erase cid,
                  storageMap := amDelete mm.storageMap cid,
                  deleted := match provOpt with
                    | some P => mm.deleted ++ [(P.id, cid)]
                    | none => mm.deleted }) m1
    { m2 with root := m2.root.erase gid,
              storageMap := amDelete m2.storageMap gid,
              deleted := match provOpt with
                | some P => m2.deleted ++ [(P.id, gid)]
                | none => m2.deleted }

/-- `GroupManager.renameGroup(id, name)`: when both the routed provider
and the group resolve, construct a replacement group under the id derived
from the new name, copy `readonly` and the direct resources, re-parent
every direct child onto the replacement, splice the replacement into the
original's position (root set or former parent), unregister the original,
delete it from storage and save the replacement.  Field reads happen at
the same program points as in the source (`src.resources` before the copy
loop, `src.childGroups` after it, `src.parentGroup` / `src.isRootGroup`
after both loops). -/
def renameGroup (m : Manager) (gid : GroupId) (name : String) : Manager :=
  match getProvider m ((amGet m.storageMap gid).getD ""), rootGet m gid with
  | some prov, some src =>
    let newGroupId := makeGroupId name
    let h0 := hInsert m.heap newGroupId
      { GroupObj.fresh with name := name, readonly := src.readonly }
    let srcRes := match h0 gid with
      | some g => g.resources
      | none => []
    let h1 := srcRes.foldl (fun h u => hUpdate h newGroupId (fun g => addResource g u)) h0
    let srcKids := match h1 gid with
      | some g => g.childGroups
      | none => []
    let h2 := srcKids.foldl (fun h c => addChildGroup h newGroupId c) h1
    let parentOpt := match h2 gid with
      | some g => g.parentGroup
      | none => none
    let m1 := { m with heap := h2,
                       root := m.root.erase gid,
                       storageMap := amDelete m.storageMap gid,
                       rootGroups := if parentOpt = none then m.rootGroups.erase gid
                                     else m.rootGroups }
    let m2 :=
      match parentOpt with
      | some p => { m1 with heap := removeChildGroup m1.heap p gid }
      | none => m1
    let m3 := { m2 with root := mapSet m2.root newGroupId,
                        storageMap := amSet m2.storageMap newGroupId prov.id }
    let m4 :=
      match parentOpt with
      | some p => { m3 with heap := addChildGroup m3.heap p newGroupId }
      | none => { m3 with rootGroups := mapSet m3.rootGroups newGroupId }
    let m5 := { m4 with deleted := m4.deleted ++ [(prov.id, gid)] }
    saveGroupM m5 newGroupId
  | _, _ => m

/-- `GroupManager.moveGroup(groupId, newParentId)`: resolve the group
(returning `false` when unknown), detach it from its current parent or
the root set, then either attach it under a truthy `newParentId`
(returning `false` when that id is unknown) or reinstall it as a root,
and save the affected groups. -/
def moveGroup (m : Manager) (gid : GroupId) (newParentId : Option String) : Manager × Bool :=
  match rootGet m gid with
  | none => (m, false)
  | some g =>
    let m1 :=
      match g.parentGroup with
      | some p => { m with heap := removeChildGroup m.heap p gid }
      | none => { m with rootGroups := m.rootGroups.erase gid }
    if jsTruthy newParentId then
      let pid := newParentId.getD ""
      match rootGet m1 pid with
      | none => (m1, false)
      | some _ =>
        let m2 := { m1 with heap := addChildGroup m1.heap pid gid }
        let m3 := saveGroupM m2 gid
        let m4 := match rootGet m3 pid with
          | some _ => saveGroupM m3 pid
          | none => m3
        (m4, true)
    else
      let m2 := { m1 with rootGroups := mapSet m1.rootGroups gid,
                          heap := hUpdate m1.heap gid (fun g => { g with parentGroup := none }) }
      let m3 := saveGroupM m2 gid
      (m3, true)

/-- `GroupManager.addGroupToMemory`: register a loaded group, its routing
entry and (when it is a root) its `rootGroups` entry, then recurse over
its children.  `fuel` bounds the recursion. -/
def addGroupToMemory (fuel : Nat) (gid : GroupId) (pid : String) (m : Manager) : Manager :=
  match fuel with
  | 0 => m
  | fuel + 1 =>
    let m1 := { m with root := mapSet m.root gid,
                       storageMap := amSet m.storageMap gid pid }
    let m2 := match m1.heap gid with
      | some g => if g.parentGroup = none
                  then { m1 with rootGroups := mapSet m1.rootGroups gid }
                  else m1
      | none => m1
    let kids := match m2.heap gid with
      | some g => g.childGroups
      | none => []
    kids.foldl (fun acc c => addGroupToMemory fuel c pid acc) m2

/-- Install a provider's freshly loaded object graph into the heap
(loaded groups are new objects; ids absent from the provider's data keep
their previous object). -/
def mergeHeap (fresh old : HeapF) : HeapF :=
  fun x => match fresh x with
    | some g => some g
    | none => old x

/-- `GroupManager.loadAll()`: clear the flattened map and the root set,
then for every registered provider (in registration order) load its root
groups and merge them — with every reachable descendant — into memory. -/
def loadAll (fuel : Nat) (m : Manager) : Manager :=
  let m1 := { m with root := [], rootGroups := [] }
  m.providers.foldl
    (fun mm P =>
      let mm1 := { mm with heap := mergeHeap P.loadHeap mm.heap }
      P.loadRoots.foldl (fun acc g => addGroupToMemory fuel g P.id acc) mm1) m1

/-- `GroupManager.reloadProvider(storageProviderId)`: when the provider is
registered, drop every group whose routing entry names it from `root`,
`rootGroups` and `storageMap`, then load and re-merge that provider's
fresh data.  Groups routed to other providers are not touched. -/
def reloadProvider (fuel : Nat) (m : Manager) (storageProviderId : String) : Manager :=
  match getProvider m storageProviderId with
  | none => m
  | some P =>
    let groupsToRemove := (m.storageMap.filter (fun kv => kv.2 == storageProviderId)).map (fun kv => kv.1)
    let m1 := groupsToRemove.foldl
      (fun mm g =>
        { mm with root := mm.root.erase g,
                  rootGroups := mm.rootGroups.erase g,
                  storageMap := amDelete mm.storageMap g }) m
    let m2 := { m1 with heap := mergeHeap P.loadHeap m1.heap }
    P.loadRoots.foldl (fun acc g => addGroupToMemory fuel g P.id acc) m2

/-! ### Persistence records and storage (src/storage/StateStorage.ts)

`StorageService` and `FocusUtil` are collaborators whose sources are not
part of the repository; they are modelled from the spec where noted. -/

/-- Modelled from the spec: the structured resource descriptor produced by
`FocusUtil.uriToResource` (FocusUtil is not among the repository sources).
The spec only requires that descriptors carry enough of the URI for
load-after-save to reproduce it, so the descriptor keeps the URI's two
observable components. -/
structure Resource where
  fsPath : String
  uriStr : String
deriving DecidableEq, Repr

/-- Modelled from the spec: `FocusUtil.uriToResource`. -/
def uriToResource (u : Uri) : Resource := ⟨u.fsPath, u.uriStr⟩

/-- Modelled from the spec: `FocusUtil.resourceToUri`, the partial inverse
used by `createGroupFromRecord` (`if (uri)` in the source allows it to
fail). -/
def resourceToUri (r : Resource) : Option Uri := some ⟨r.fsPath, r.uriStr⟩

/-- Modelled from the spec: `vscode.Uri.parse` as used by the migration to
turn a bare stored path back into a URI. -/
def uriParse (s : String) : Uri := ⟨s, s⟩

/-- `GroupRecord`: the nested persisted record
`{id, name, resources, childGroups?, parentId?}`. -/
inductive GroupRecord where
  | mk (id : String) (name : String) (resources : List Resource)
       (childGroups : Option (List GroupRecord)) (parentId : Option String)
deriving Repr

def GroupRecord.id : GroupRecord → String
  | .mk i _ _ _ _ => i

def GroupRecord.name : GroupRecord → String
  | .mk _ n _ _ _ => n

def GroupRecord.resources : GroupRecord → List Resource
  | .mk _ _ r _ _ => r

def GroupRecord.childGroups : GroupRecord → Option (List GroupRecord)
  | .mk _ _ _ c _ => c

def GroupRecord.parentId : GroupRecord → Option String
  | .mk _ _ _ _ p => p

/-- The `groupmap` store: record ids mapped to records, in insertion
order (JavaScript object entries). -/
abbrev Store := List (String × GroupRecord)

/-- `Map.set` on the record store: replace an existing key in place,
append a new one. -/
def recSet : Store → String → GroupRecord → Store
  | [], k, r => [(k, r)]
  | kv :: rest, k, r => if kv.1 = k then (k, r) :: rest else kv :: recSet rest k r

/-- `Map.get` on the record store. -/
def recGet (l : Store) (k : String) : Option GroupRecord :=
  (l.find? (fun kv => kv.1 == k)).map (fun kv => kv.2)

/-- `StateStorage.createGroupRecord`: serialize the subtree rooted at
`gid` into a nested record; `parentId` is taken from the live parent
reference.  `fuel` bounds the recursion over the (acyclic) subtree. -/
def createGroupRecord (h : HeapF) : Nat → GroupId → Option GroupRecord
  | 0, _ => none
  | fuel + 1, gid =>
    match h gid with
    | none => none
    | some g =>
      let childRecords := g.childGroups.filterMap (createGroupRecord h fuel)
      some (.mk gid g.name (g.resources.map uriToResource)
        (if childRecords.isEmpty then none else some childRecords) g.parentGroup)

mutual

/-- `StateStorage.saveGroupRecordRecursive`: write the record and then,
recursively, each nested child record into the store. -/
def saveGroupRecordRecursive : Store → GroupRecord → Store
  | store, .mk i n res cs pid =>
    let s1 := recSet store i (.mk i n res cs pid)
    match cs with
    | none => s1
    | some l => saveRecordList s1 l

/-- The child loop of `saveGroupRecordRecursive`. -/
def saveRecordList : Store → List GroupRecord → Store
  | store, [] => store
  | store, r :: rs => saveRecordList (saveGroupRecordRecursive store r) rs

end

/-- `StateStorage.createGroupFromRecord`: a bare group carrying the
record's name and resources (children are attached in the second load
pass).  Resource descriptors that fail to convert are skipped. -/
def createGroupFromRecord (r : GroupRecord) : GroupObj :=
  r.resources.foldl
    (fun g res => match resourceToUri res with
      | some u => addResource g u
      | none => g)
    { GroupObj.fresh with name := r.name }

/-- First load pass: instantiate every record as a bare group, keyed by
the record's id. -/
def loadPassOne (store : Store) : HeapF :=
  store.foldl (fun h kv => hInsert h kv.2.id (createGroupFromRecord kv.2)) hEmpty

/-- One step of the second load pass: skip records whose group was not
instantiated; otherwise attach the already-instantiated children of the
record and collect the group as a root when the record has no
`parentId`. -/
def pass2Step (acc : HeapF × List GroupId) (kv : String × GroupRecord) : HeapF × List GroupId :=
  match acc.1 kv.1 with
  | none => acc
  | some _ =>
    let h1 := match kv.2.childGroups with
      | some crs => crs.foldl (fun hh cr => addChildGroup hh kv.1 cr.id) acc.1
      | none => acc.1
    let roots := if kv.2.parentId = none then acc.2 ++ [kv.1] else acc.2
    (h1, roots)

/-- `StateStorage.loadRootNodes`, after the store has been read: second
pass attaches the already-instantiated children of every record and
collects as roots exactly the records with no `parentId`.  Returns the
loaded object graph and the ids of the returned root groups. -/
def loadFromStore (store : Store) : HeapF × List GroupId :=
  store.foldl pass2Step (loadPassOne store, [])

/-- The deprecated flat record `{id, label}`. -/
structure DeprecateGroupRecord where
  id : String
  label : String
deriving DecidableEq, Repr

/-- A value stored under one key of the keyed store. -/
inductive StoreVal where
  | num (n : Int)
  | gmap (m : Store)
  | dmap (m : List (String × DeprecateGroupRecord))
  | paths (l : List String)
deriving Repr

/-- Modelled from the spec: `StorageService` (not among the repository
sources) is a single keyed store; `getValue(key, default)` falls back to
the default when the key is absent, `setValue` overwrites, `deleteValue`
removes. -/
abbrev Storage := List (String × StoreVal)

def lookupStorage (s : Storage) (k : String) : Option StoreVal :=
  (s.find? (fun kv => kv.1 == k)).map (fun kv => kv.2)

def setValue : Storage → String → StoreVal → Storage
  | [], k, v => [(k, v)]
  | kv :: rest, k, v => if kv.1 = k then (k, v) :: rest else kv :: setValue rest k v

def deleteValue (s : Storage) (k : String) : Storage :=
  s.filter (fun kv => kv.1 != k)

/-- `getValue<number>(key, default)`. -/
def getNum (s : Storage) (k : String) (d : Int) : Int :=
  match lookupStorage s k with
  | some (.num n) => n
  | _ => d

/-- `getValue<GroupStore>("groupmap", {})`. -/
def getGroupMap (s : Storage) : Store :=
  match lookupStorage s "groupmap" with
  | some (.gmap m) => m
  | _ => []

/-- `getValue<DeprecateGroupStore>("groupstore", {})`. -/
def getDepMap (s : Storage) : List (String × DeprecateGroupRecord) :=
  match lookupStorage s "groupstore" with
  | some (.dmap m) => m
  | _ => []

/-- `getValue<string[]>(key, [])`. -/
def getPaths (s : Storage) (k : String) : List String :=
  match lookupStorage s k with
  | some (.paths l) => l
  | _ => []

/-- `StateStorage.migrateStorageV1`: return unchanged when the version
marker is positive; otherwise convert every legacy `groupstore` record
(label plus the `A-<id>` path list) into a current-format record in
`groupmap`, delete the legacy keys and stamp the version marker. -/
def migrateStorageV1 (s : Storage) : Storage :=
  let storeversion := getNum s "storeversion" 0
  if storeversion > 0 then s
  else
    let dstMap := getGroupMap s
    let srcMap := getDepMap s
    let dstMap2 := srcMap.foldl
      (fun dm kv =>
        let paths := getPaths s ("A-" ++ kv.2.id)
        let r : GroupRecord := .mk kv.2.id kv.2.label
          (paths.map (fun p => uriToResource (uriParse p))) none none
        recSet dm r.id r)
      dstMap
    let s1 := setValue s "groupmap" (.gmap dstMap2)
    let s2 := srcMap.foldl (fun st kv => deleteValue st ("A-" ++ kv.2.id)) s1
    let s3 := deleteValue s2 "groupstore"
    setValue s3 "storeversion" (.num 1)

/-- `StateStorage.saveGroup`: serialize the subtree rooted at `gid` and
write the record and all its descendants into the `groupmap` store. -/
def StateStorage.saveGroup (s : Storage) (h : HeapF) (fuel : Nat) (gid : GroupId) : Storage :=
  match createGroupRecord h fuel gid with
  | none => s
  | some r =>
    let storeMap := getGroupMap s
    let storeMap2 := saveGroupRecordRecursive storeMap r
    setValue s "groupmap" (.gmap storeMap2)

/-- `StateStorage.loadRootNodes`: run the migration, read the `groupmap`
store and reconstruct the forest in two passes. -/
def StateStorage.loadRootNodes (s : Storage) : HeapF × List GroupId :=
  let s1 := migrateStorageV1 s
  loadFromStore (getGroupMap s1)

/-! ### Trees extracted from the heap

`GTree` is the statement-level view of a group subtree used to compare
the forest before saving with the forest after loading: node identity,
name, resource list (in order) and child structure (in order). -/

/-- A group subtree as pure data. -/
inductive GTree where
  | node (id : String) (name : String) (resources : List Uri) (children : List GTree)
deriving Repr

def GTree.id : GTree → String
  | .node i _ _ _ => i

def GTree.name : GTree → String
  | .node _ n _ _ => n

def GTree.resources : GTree → List Uri
  | .node _ _ rs _ => rs

def GTree.children : GTree → List GTree
  | .node _ _ _ cs => cs

/-- Extract the subtree rooted at `gid` from a heap; fails when the fuel
is smaller than the depth or a referenced object is missing. -/
def treeOf (h : HeapF) : Nat → GroupId → Option GTree
  | 0, _ => none
  | fuel + 1, gid =>
    match h gid with
    | none => none
    | some g =>
      (g.childGroups.mapM (treeOf h fuel)).map (GTree.node gid g.name g.resources)

/-- Every resource in the list has a distinct normalized path (true of any
resource list built through `addResource`). -/
def distinctPaths : List Uri → Bool
  | [] => true
  | u :: us => us.all (fun v => v.fsPath != u.fsPath) && distinctPaths us

mutual

/-- The ids in a tree, pre-order. -/
def GTree.ids : GTree → List String
  | .node i _ _ cs => i :: GTree.idsList cs

/-- The ids of a forest, pre-order. -/
def GTree.idsList : List GTree → List String
  | [] => []
  | t :: ts => t.ids ++ GTree.idsList ts

end

/-- Well-formedness of the subtree at `gid`: every node exists, every
child's live parent reference points back at the node it is listed under,
and every node's resource list has distinct normalized paths. -/
def wfSubtree (h : HeapF) : Nat → GroupId → Bool
  | 0, _ => false
  | fuel + 1, gid =>
    match h gid with
    | none => false
    | some g =>
      distinctPaths g.resources &&
      g.childGroups.all (fun c =>
        (match h c with
         | some cg => cg.parentGroup == some gid
         | none => false) &&
        wfSubtree h fuel c)

/-! ### Statement-level apparatus for the save/load round trip

These definitions only serve to state and prove the round-trip property:
the persisted image of a tree, and the shape of a loaded object graph. -/

mutual

/-- The nested record that `createGroupRecord` produces for a subtree
(given the parent id recorded for the subtree root). -/
def recordOfTree : GTree → Option String → GroupRecord
  | .node i n rs cs, par =>
    let crs := recordOfTreeList cs i
    .mk i n (rs.map uriToResource) (if crs.isEmpty then none else some crs) par

/-- The child records of a node, in order. -/
def recordOfTreeList : List GTree → String → List GroupRecord
  | [], _ => []
  | t :: ts, i => recordOfTree t (some i) :: recordOfTreeList ts i

end

mutual

/-- The flattened store image `saveGroupRecordRecursive` writes for a
record: pre-order, keyed by record id. -/
def flatRecs : GroupRecord → Store
  | .mk i n rs cs par =>
    (i, .mk i n rs cs par) :: flatRecsOpt cs

/-- The flattened image of an optional child-record list. -/
def flatRecsOpt : Option (List GroupRecord) → Store
  | none => []
  | some rs => flatRecsList rs

/-- The flattened image of a child-record list. -/
def flatRecsList : List GroupRecord → Store
  | [] => []
  | r :: rs => flatRecs r ++ flatRecsList rs

end

mutual

/-- The fully linked shape of a loaded subtree: every node holds its
name, resources, its children's ids in order, and its parent id. -/
def linkedAt : HeapF → GTree → Option String → Prop
  | H, .node i n rs cs, par =>
    H i = some { name := n, readonly := false, resources := rs,
                 childGroups := cs.map GTree.id, parentGroup := par } ∧
    linkedAtList H cs i

/-- All trees of a forest are linked under the given parent. -/
def linkedAtList : HeapF → List GTree → String → Prop
  | _, [], _ => True
  | H, t :: ts, i => linkedAt H t (some i) ∧ linkedAtList H ts i

end

mutual

/-- The bare (first-pass) shape of a loaded subtree: every node holds its
name and resources but no links yet. -/
def bareAt : HeapF → GTree → Prop
  | H, .node i n rs cs =>
    H i = some { name := n, readonly := false, resources := rs, childGroups := [],
                 parentGroup := none } ∧
    bareAtList H cs

/-- All trees of a forest are bare. -/
def bareAtList : HeapF → List GTree → Prop
  | _, [] => True
  | H, t :: ts => bareAt H t ∧ bareAtList H ts

end

/-- The shape of a subtree whose root has already been attached below a
parent (its parent reference set, its child links still pending) while
all its descendants are still bare. -/
def rootBare (H : HeapF) (t : GTree) (par : Option String) : Prop :=
  match t with
  | .node i n rs cs =>
    H i = some { name := n, readonly := false, resources := rs, childGroups := [],
                 parentGroup := par } ∧
    bareAtList H cs

/-! ### Concrete instances used to evaluate the theorems -/

/-- A sample URI. -/
def wuA : Uri := ⟨"/a", "file:///a"⟩

/-- A sample URI with a distinct path. -/
def wuB : Uri := ⟨"/b", "file:///b"⟩

/-- A sample URI with a distinct path. -/
def wuC : Uri := ⟨"/c", "file:///c"⟩

/-- A URI with the same normalized path as `wuA` but a different string
rendering (e.g. a trailing slash). -/
def wuA' : Uri := ⟨"/a", "file:///a/"⟩

/-- A group holding two resources. -/
def wg2 : GroupObj := { GroupObj.fresh with name := "W", resources := [wuA, wuB] }

/-- A one-object heap: a single parentless childless group "a". -/
def selfHeap : HeapF :=
  fun x => if x = "a" then some { GroupObj.fresh with name := "A" } else none

/-- A provider with no load data. -/
def wP1 : Provider := { id := "p1", loadRoots := [], loadHeap := hEmpty }

/-- A manager holding one registered root group "a" routed to provider
"p1". -/
def wm0 : Manager :=
  { heap := selfHeap, root := ["a"], rootGroups := ["a"],
    storageMap := [("a", "p1")], providers := [wP1], deleted := [], saved := [] }

/-- `wm0` with an additional freshly constructed, not yet registered
object "b" in the heap. -/
def wmB : Manager :=
  { wm0 with heap := fun x =>
      if x = "b" then some { GroupObj.fresh with name := "B" } else selfHeap x }

/-- A chain of three groups: root "g" with child "c1", which has child
"c2". -/
def chainHeap : HeapF := fun x =>
  if x = "g" then some { GroupObj.fresh with name := "G", childGroups := ["c1"] }
  else if x = "c1" then
    some { GroupObj.fresh with name := "C1", childGroups := ["c2"], parentGroup := some "g" }
  else if x = "c2" then some { GroupObj.fresh with name := "C2", parentGroup := some "c1" }
  else none

/-- A manager registering the chain, all routed to provider "p1". -/
def wmChain : Manager :=
  { heap := chainHeap, root := ["g", "c1", "c2"], rootGroups := ["g"],
    storageMap := [("g", "p1"), ("c1", "p1"), ("c2", "p1")],
    providers := [wP1], deleted := [], saved := [] }

/-- The two-provider scenario of the spec: two registered providers, each
contributing one root group whose id derives from its (distinct) name;
the routing table starts empty, everything else is arbitrary. -/
def twoProviderScenario (h0 : HeapF) (r0 rg0 : List GroupId)
    (d sv : List (String × GroupId)) (n1 n2 p1 p2 : String) (g1 g2 : GroupObj) : Manager :=
  { heap := h0, root := r0, rootGroups := rg0, storageMap := [],
    providers := [
      { id := p1, loadRoots := [makeGroupId n1],
        loadHeap := fun x => if x = makeGroupId n1 then some g1 else none },
      { id := p2, loadRoots := [makeGroupId n2],
        loadHeap := fun x => if x = makeGroupId n2 then some g2 else none }],
    deleted := d, saved := sv }

/-- A storage still holding only legacy-format data: one legacy record
and its path list. -/
def wStoreLegacy : Storage :=
  [("groupstore", .dmap [("g1", ⟨"g1", "Alpha"⟩)]), ("A-g1", .paths ["file:///a"])]

/-- A storage whose version marker is already stamped. -/
def wStoreDone : Storage := [("storeversion", .num 1)]

/-- The concrete two-provider scenario used to evaluate C7. -/
def wmTwo : Manager :=
  twoProviderScenario hEmpty [] [] [] [] "Alpha" "Beta" "pa" "pb"
    { GroupObj.fresh with name := "Alpha" } { GroupObj.fresh with name := "Beta" }

/-! ### Basic lemmas about the heap and map models -/

theorem hUpdate_apply (h : HeapF) (id : GroupId) (f : GroupObj → GroupObj) (x : GroupId) :
    hUpdate h id f x = if x = id then (h x).map f else h x := rfl

theorem hInsert_apply (h : HeapF) (id : GroupId) (g : GroupObj) (x : GroupId) :
    hInsert h id g x = if x = id then some g else h x := rfl

/-! Equation lemmas for the match-based child operations. -/

theorem removeChildGroup_eq_none (h : HeapF) (pid cid : GroupId) (hp : h pid = none) :
    removeChildGroup h pid cid = h := by
  simp only [removeChildGroup, hp]

theorem removeChildGroup_eq_nofind (h : HeapF) (pid cid : GroupId) (p : GroupObj)
    (hp : h pid = some p)
    (hfi : p.childGroups.findIdx? (fun item => item == cid) = none) :
    removeChildGroup h pid cid = h := by
  simp only [removeChildGroup, hp, hfi]

theorem removeChildGroup_eq_found (h : HeapF) (pid cid : GroupId) (p : GroupObj) (i : Nat)
    (hp : h pid = some p)
    (hfi : p.childGroups.findIdx? (fun item => item == cid) = some i) :
    removeChildGroup h pid cid
      = hUpdate (hUpdate h pid (fun g => { g with childGroups := g.childGroups.eraseIdx i }))
          cid (fun g => { g with parentGroup := none }) := by
  simp only [removeChildGroup, hp, hfi]

theorem addChildGroup_eq_contains (h : HeapF) (pid cid : GroupId) (p c : GroupObj)
    (hp : h pid = some p) (hc : h cid = some c)
    (hcont : childGroupContains p cid = true) :
    addChildGroup h pid cid = h := by
  simp only [addChildGroup, hp, hc, hcont, if_true]

theorem addChildGroup_eq (h : HeapF) (pid cid : GroupId) (p c : GroupObj)
    (hp : h pid = some p) (hc : h cid = some c)
    (hnot : childGroupContains p cid = false) :
    addChildGroup h pid cid
      = hUpdate (hUpdate (match c.parentGroup with
          | some op => removeChildGroup h op cid
          | none => h) pid (fun g => { g with childGroups := g.childGroups ++ [cid] }))
          cid (fun g => { g with parentGroup := some pid }) := by
  simp only [addChildGroup, hp, hc, hnot, Bool.false_eq_true, if_false]

/-- Decomposition of a first-match search: either the needle is absent and
the search fails, or the list splits around its first occurrence and
setting that index replaces it. -/
theorem findIdx_decomp (src dst : Uri) (l : List Uri) :
    (src ∉ l → l.findIdx? (fun item => item == src) = none) ∧
    (src ∈ l → ∃ i l1 l2, l.findIdx? (fun item => item == src) = some i ∧
      l = l1 ++ src :: l2 ∧ src ∉ l1 ∧ l.set i dst = l1 ++ dst :: l2) := by
  induction l with
  | nil => simp
  | cons a l ih =>
    constructor
    · intro hmem
      have ha : (a == src) = false := by
        simp only [beq_eq_false_iff_ne]
        intro hcontra
        exact hmem (hcontra ▸ List.mem_cons_self a l)
      rw [List.findIdx?_cons, ha, if_neg (by simp), List.findIdx?_succ,
        ih.1 (fun hsrc => hmem (List.mem_cons_of_mem a hsrc))]
      rfl
    · intro hmem
      by_cases hcase : a = src
      · subst hcase
        refine ⟨0, [], l, ?_, rfl, by simp, by simp⟩
        rw [List.findIdx?_cons]
        simp
      · have hmem' : src ∈ l := by
          rcases List.mem_cons.mp hmem with hsrc | hsrc
          · exact absurd hsrc.symm hcase
          · exact hsrc
        rcases ih.2 hmem' with ⟨i, l1, l2, hfi, hdecomp, hnotin, hset⟩
        refine ⟨i + 1, a :: l1, l2, ?_, by simp [hdecomp], ?_, ?_⟩
        · rw [List.findIdx?_cons]
          have ha : (a == src) = false := by
            simp only [beq_eq_false_iff_ne]
            exact hcase
          rw [ha, if_neg (by simp), List.findIdx?_succ, hfi]
          rfl
        · intro hin
          rcases List.mem_cons.mp hin with hsrc | hsrc
          · exact hcase hsrc.symm
          · exact hnotin hsrc
        · simpa using hset

/-- Membership formulation of `List.contains` at the `GroupId` type. -/
theorem contains_iff_mem {l : List GroupId} {k : GroupId} : l.contains k = true ↔ k ∈ l :=
  List.elem_iff

theorem contains_eq_false_of_not_mem {l : List GroupId} {k : GroupId} (h : k ∉ l) :
    l.contains k = false := by
  cases hc : l.contains k
  · rfl
  · exact absurd (contains_iff_mem.mp hc) h

/-- Membership formulation of `_childGroupContains`. -/
theorem childGroupContains_iff (g : GroupObj) (cid : GroupId) :
    childGroupContains g cid = true ↔ cid ∈ g.childGroups := by
  unfold childGroupContains
  rw [List.any_eq_true]
  constructor
  · rintro ⟨c, hc, hbeq⟩
    exact (beq_iff_eq.mp hbeq) ▸ hc
  · intro hmem
    exact ⟨cid, hmem, beq_iff_eq.mpr rfl⟩

theorem childGroupContains_eq_false (g : GroupObj) (cid : GroupId)
    (h : cid ∉ g.childGroups) : childGroupContains g cid = false := by
  cases hc : childGroupContains g cid
  · rfl
  · exact absurd ((childGroupContains_iff g cid).mp hc) h

/-- A nonempty string is truthy. -/
theorem jsTruthy_some {p : String} (hp : p ≠ "") : jsTruthy (some p) = true := by
  show (!p.isEmpty) = true
  cases he : p.isEmpty
  · rfl
  · exact absurd ((String.isEmpty_iff p).mp he) hp

/-- First-match erasure: erasing at the index found for an element equals
`List.erase`. -/
theorem findIdx_erase (l : List GroupId) (a : GroupId) :
    (a ∉ l → l.findIdx? (fun item => item == a) = none) ∧
    (a ∈ l → ∃ i, l.findIdx? (fun item => item == a) = some i ∧ l.eraseIdx i = l.erase a) := by
  induction l with
  | nil => simp
  | cons x l ih =>
    constructor
    · intro hmem
      rw [List.findIdx?_eq_none_iff]
      intro y hy
      simp only [beq_eq_false_iff_ne, ne_eq]
      intro hcontra
      exact hmem (hcontra ▸ hy)
    · intro hmem
      by_cases hcase : x = a
      · subst hcase
        refine ⟨0, ?_, ?_⟩
        · rw [List.findIdx?_cons, if_pos (by exact beq_self_eq_true _)]
        · rw [List.eraseIdx_cons_zero, List.erase_cons_head]
      · have hmem' : a ∈ l := by
          rcases List.mem_cons.mp hmem with hy | hy
          · exact absurd hy.symm hcase
          · exact hy
        rcases ih.2 hmem' with ⟨i, hfi, her⟩
        refine ⟨i + 1, ?_, ?_⟩
        · have hx : (x == a) = false := by
            simp only [beq_eq_false_iff_ne, ne_eq]
            exact hcase
          rw [List.findIdx?_cons, hx, if_neg Bool.false_ne_true, List.findIdx?_succ, hfi]
          rfl
        · rw [List.eraseIdx_cons_succ, her, List.erase_cons_tail]
          intro hcontra
          exact hcase (beq_iff_eq.mp hcontra)

/-- Full characterization of a successful `removeChildGroup`: the parent
loses the child (first occurrence), the child's parent reference is
cleared, and no other object changes. -/
theorem removeChildGroup_spec (h : HeapF) (q cid : GroupId) (qobj : GroupObj)
    (hq : h q = some qobj) (hmem : cid ∈ qobj.childGroups) (hne : q ≠ cid) :
    (removeChildGroup h q cid) q = some { qobj with childGroups := qobj.childGroups.erase cid } ∧
    (removeChildGroup h q cid) cid = (h cid).map (fun go => { go with parentGroup := none }) ∧
    (∀ x, x ≠ q → x ≠ cid → (removeChildGroup h q cid) x = h x) := by
  rcases (findIdx_erase qobj.childGroups cid).2 hmem with ⟨i, hfi, her⟩
  rw [removeChildGroup_eq_found h q cid qobj i hq hfi]
  refine ⟨?_, ?_, ?_⟩
  · simp [hUpdate_apply, if_neg (fun hcontra : q = cid => hne hcontra), hq, her]
  · simp only [hUpdate_apply, if_pos rfl, if_neg (fun hcontra : cid = q => hne hcontra.symm),
      if_true, eq_self_iff_true]
  · intro x hxq hxc
    simp only [hUpdate_apply, if_neg hxc, if_neg hxq]

/-- Full characterization of `addChildGroup` when the child has no
previous parent: the child is appended to the parent's list, its parent
reference is set, and no other object changes. -/
theorem addChildGroup_spec_noparent (h : HeapF) (pid cid : GroupId) (p c : GroupObj)
    (hp : h pid = some p) (hc : h cid = some c)
    (hnot : cid ∉ p.childGroups) (hcp : c.parentGroup = none) (hne : pid ≠ cid) :
    (addChildGroup h pid cid) pid = some { p with childGroups := p.childGroups ++ [cid] } ∧
    (addChildGroup h pid cid) cid = some { c with parentGroup := some pid } ∧
    (∀ x, x ≠ pid → x ≠ cid → (addChildGroup h pid cid) x = h x) := by
  rw [addChildGroup_eq h pid cid p c hp hc (childGroupContains_eq_false p cid hnot), hcp]
  refine ⟨?_, ?_, ?_⟩
  · simp [hUpdate_apply, if_neg (fun hcontra : pid = cid => hne hcontra), hp]
  · simp [hUpdate_apply, if_neg (fun hcontra : cid = pid => hne hcontra.symm), hc]
  · intro x hxp hxc
    simp only [hUpdate_apply, if_neg hxc, if_neg hxp]

/-- Full characterization of `addChildGroup` when the child is currently a
child of `op` (a single-ownership transfer): `op` loses the child, the new
parent gains it, the child is re-pointed, and no other object changes. -/
theorem addChildGroup_spec_parent (h : HeapF) (pid cid op : GroupId) (p c pobj : GroupObj)
    (hp : h pid = some p) (hc : h cid = some c)
    (hnot : cid ∉ p.childGroups) (hcp : c.parentGroup = some op)
    (hop : h op = some pobj) (hmem : cid ∈ pobj.childGroups)
    (hne1 : pid ≠ cid) (hne2 : op ≠ cid) (hne3 : op ≠ pid) :
    (addChildGroup h pid cid) pid = some { p with childGroups := p.childGroups ++ [cid] } ∧
    (addChildGroup h pid cid) cid = some { c with parentGroup := some pid } ∧
    (addChildGroup h pid cid) op = some { pobj with childGroups := pobj.childGroups.erase cid } ∧
    (∀ x, x ≠ pid → x ≠ cid → x ≠ op → (addChildGroup h pid cid) x = h x) := by
  rw [addChildGroup_eq h pid cid p c hp hc (childGroupContains_eq_false p cid hnot), hcp]
  rcases removeChildGroup_spec h op cid pobj hop hmem hne2 with ⟨hrq, hrc, hrf⟩
  refine ⟨?_, ?_, ?_, ?_⟩
  · simp only [hUpdate_apply, if_neg (fun hcontra : pid = cid => hne1 hcontra), if_pos rfl,
      if_true, eq_self_iff_true]
    rw [hrf pid (fun hcontra => hne3 hcontra.symm) hne1, hp]
    rfl
  · simp only [hUpdate_apply, if_pos rfl, if_neg (fun hcontra : cid = pid => hne1 hcontra.symm),
      if_true, eq_self_iff_true]
    rw [hrc, hc]
    rfl
  · simp only [hUpdate_apply, if_neg (fun hcontra : op = cid => hne2 hcontra),
      if_neg (fun hcontra : op = pid => hne3 hcontra)]
    exact hrq
  · intro x hxp hxc hxop
    simp only [hUpdate_apply, if_neg hxc, if_neg hxp]
    exact hrf x hxop hxc

/-! Association-list (`storageMap`, routing table) lemmas. -/

theorem amGet_set_same (l : List (GroupId × String)) (k : GroupId) (v : String) :
    amGet (amSet l k v) k = some v := by
  induction l with
  | nil => simp [amSet, amGet, List.find?_cons]
  | cons kv l ih =>
    unfold amSet
    by_cases hkv : kv.1 = k
    · rw [if_pos hkv]
      simp [amGet, List.find?_cons]
    · rw [if_neg hkv]
      unfold amGet
      rw [List.find?_cons]
      have hb : (kv.1 == k) = false := by
        simp only [beq_eq_false_iff_ne, ne_eq]
        exact hkv
      rw [hb]
      exact ih

theorem amGet_set_other (l : List (GroupId × String)) (k : GroupId) (v : String) (x : GroupId)
    (hne : x ≠ k) : amGet (amSet l k v) x = amGet l x := by
  have hkx : (k == x) = false := by
    simp only [beq_eq_false_iff_ne, ne_eq]
    exact fun hcontra => hne hcontra.symm
  induction l with
  | nil =>
    simp [amSet, amGet, List.find?_cons, hkx]
  | cons kv l ih =>
    unfold amSet
    by_cases hkv : kv.1 = k
    · rw [if_pos hkv]
      unfold amGet
      rw [List.find?_cons, List.find?_cons, hkx]
      have h2 : (kv.1 == x) = false := by rw [hkv]; exact hkx
      rw [h2]
    · rw [if_neg hkv]
      unfold amGet
      rw [List.find?_cons, List.find?_cons]
      cases hx : kv.1 == x
      · exact ih
      · rfl

theorem amGet_delete_same (l : List (GroupId × String)) (k : GroupId) :
    amGet (amDelete l k) k = none := by
  induction l with
  | nil => rfl
  | cons kv l ih =>
    unfold amDelete at ih ⊢
    rw [List.filter_cons]
    by_cases hkv : kv.1 = k
    · rw [if_neg (by subst hkv; simp)]
      exact ih
    · rw [if_pos (by simp only [bne_iff_ne, ne_eq]; exact hkv)]
      unfold amGet
      rw [List.find?_cons]
      have hb : (kv.1 == k) = false := by
        simp only [beq_eq_false_iff_ne, ne_eq]
        exact hkv
      rw [hb]
      exact ih

theorem amGet_delete_other (l : List (GroupId × String)) (k x : GroupId) (hne : x ≠ k) :
    amGet (amDelete l k) x = amGet l x := by
  induction l with
  | nil => rfl
  | cons kv l ih =>
    unfold amDelete at ih ⊢
    rw [List.filter_cons]
    by_cases hkv : kv.1 = k
    · rw [if_neg (by subst hkv; simp)]
      unfold amGet
      rw [List.find?_cons]
      have hb : (kv.1 == x) = false := by
        simp only [beq_eq_false_iff_ne, ne_eq]
        exact fun hcontra => hne (hcontra.symm.trans hkv)
      rw [hb]
      exact ih
    · rw [if_pos (by simp only [bne_iff_ne, ne_eq]; exact hkv)]
      unfold amGet
      rw [List.find?_cons, List.find?_cons]
      cases hx : kv.1 == x
      · exact ih
      · rfl

/-! `mapSet` lemmas. -/

theorem mapSet_of_not_mem {l : List GroupId} {k : GroupId} (h : k ∉ l) :
    mapSet l k = l ++ [k] := by
  unfold mapSet
  rw [if_neg]
  rw [contains_eq_false_of_not_mem h]
  simp

theorem mapSet_of_mem {l : List GroupId} {k : GroupId} (h : k ∈ l) :
    mapSet l k = l := by
  unfold mapSet
  rw [if_pos (contains_iff_mem.mpr h)]

theorem mem_mapSet_self (l : List GroupId) (k : GroupId) : k ∈ mapSet l k := by
  by_cases h : k ∈ l
  · rw [mapSet_of_mem h]
    exact h
  · rw [mapSet_of_not_mem h]
    simp

theorem mem_mapSet_of_mem (l : List GroupId) (k x : GroupId) (h : x ∈ l) : x ∈ mapSet l k := by
  by_cases hk : k ∈ l
  · rw [mapSet_of_mem hk]
    exact h
  · rw [mapSet_of_not_mem hk]
    exact List.mem_append_left _ h

/-! ### Claim C9: replaceResource replaces the first match or is a no-op -/

/-- C9.  For every group g and URIs src, dst: when an entry equal to src
is present in g.resources, replaceResource replaces the first such entry
with dst; when src is absent the call is a silent no-op leaving the group
(and in particular g.resources) unchanged. -/
theorem replaceResource_replaces_or_noop (g : GroupObj) (src dst : Uri) :
    (src ∈ g.resources →
      ∃ l1 l2, g.resources = l1 ++ src :: l2 ∧ src ∉ l1 ∧
        (replaceResource g src dst).resources = l1 ++ dst :: l2) ∧
    (src ∉ g.resources → replaceResource g src dst = g) := by
  have hd := findIdx_decomp src dst g.resources
  constructor
  · intro hmem
    rcases hd.2 hmem with ⟨i, l1, l2, hfi, hdecomp, hnotin, hset⟩
    exact ⟨l1, l2, hdecomp, hnotin, by simp [replaceResource, hfi, hset]⟩
  · intro hmem
    simp [replaceResource, hd.1 hmem]

/-- Evaluation of C9 at concrete inputs: replacing a present resource and
attempting to replace an absent one. -/
theorem replaceResource_replaces_or_noop_witness :
    wuA ∈ wg2.resources ∧
    (∃ l1 l2, wg2.resources = l1 ++ wuA :: l2 ∧ wuA ∉ l1 ∧
      (replaceResource wg2 wuA wuC).resources = l1 ++ wuC :: l2) ∧
    wuC ∉ wg2.resources ∧ replaceResource wg2 wuC wuA = wg2 :=
  ⟨by decide, (replaceResource_replaces_or_noop wg2 wuA wuC).1 (by decide),
   by decide, (replaceResource_replaces_or_noop wg2 wuC wuA).2 (by decide)⟩

/-! ### Claim C10: addResource and removeResource use different equality -/

/-- C10.  addResource deduplicates by normalized path while
removeResource matches by full URI string: for URIs u1, u2 with equal
fsPath but different string forms, after adding u1 (to a group with no
entry at that path and none rendering like u2), adding u2 is a no-op,
removing u2 is a no-op, and u1 stays in the resource list. -/
theorem addResource_removeResource_equality_mismatch (g : GroupObj) (u1 u2 : Uri)
    (hfs : u1.fsPath = u2.fsPath) (hstr : u1.uriStr ≠ u2.uriStr)
    (hnew : resourceContains g u1 = false)
    (hnostr : ∀ r ∈ g.resources, r.uriStr ≠ u2.uriStr) :
    addResource (addResource g u1) u2 = addResource g u1 ∧
    removeResource (addResource g u1) u2 = addResource g u1 ∧
    u1 ∈ (addResource g u1).resources := by
  have hadd : addResource g u1 = { g with resources := g.resources ++ [u1] } := by
    simp [addResource, hnew]
  refine ⟨?_, ?_, ?_⟩
  · have hcont : resourceContains (addResource g u1) u2 = true := by
      simp only [hadd, resourceContains, List.any_append, List.any_cons, List.any_nil]
      have : (u1.fsPath == u2.fsPath) = true := beq_iff_eq.mpr hfs
      simp [this]
    have hstep : addResource (addResource g u1) u2
        = if resourceContains (addResource g u1) u2 = true then addResource g u1
          else { addResource g u1 with
                 resources := (addResource g u1).resources ++ [u2] } := rfl
    rw [hstep, if_pos hcont]
  · have hnone : ((addResource g u1).resources.findIdx?
        (fun item => item.uriStr == u2.uriStr)) = none := by
      rw [List.findIdx?_eq_none_iff]
      intro x hx
      rw [hadd] at hx
      simp only [List.mem_append, List.mem_singleton] at hx
      rcases hx with hx | hx
      · simpa using hnostr x hx
      · subst hx
        simpa using hstr
    simp [removeResource, hnone]
  · rw [hadd]
    simp

/-- Evaluation of C10 at concrete inputs: wuA and wuA' share a path but
render differently. -/
theorem addResource_removeResource_equality_mismatch_witness :
    wuA.fsPath = wuA'.fsPath ∧ wuA.uriStr ≠ wuA'.uriStr ∧
    resourceContains GroupObj.fresh wuA = false ∧
    (addResource (addResource GroupObj.fresh wuA) wuA' = addResource GroupObj.fresh wuA ∧
     removeResource (addResource GroupObj.fresh wuA) wuA' = addResource GroupObj.fresh wuA ∧
     wuA ∈ (addResource GroupObj.fresh wuA).resources) :=
  ⟨by decide, by decide, by decide,
   addResource_removeResource_equality_mismatch GroupObj.fresh wuA wuA'
     (by decide) (by decide) (by decide) (by decide)⟩

/-! ### Claim C4: the primitives do not enforce acyclicity -/

/-- A child operation addressed at a different parent id leaves the
child's own child list unchanged (it only clears the child's parent
reference). -/
theorem removeChildGroup_childGroups_at (h : HeapF) (op cid : GroupId) (hne : op ≠ cid) :
    ((removeChildGroup h op cid) cid).map GroupObj.childGroups
      = (h cid).map GroupObj.childGroups := by
  cases hop : h op with
  | none => rw [removeChildGroup_eq_none h op cid hop]
  | some p =>
    cases hfi : p.childGroups.findIdx? (fun item => item == cid) with
    | none => rw [removeChildGroup_eq_nofind h op cid p hop hfi]
    | some i =>
      rw [removeChildGroup_eq_found h op cid p i hop hfi]
      simp only [hUpdate_apply, if_pos rfl,
        if_neg (fun hcontra : cid = op => hne hcontra.symm)]
      cases h cid <;> rfl

/-- C4 does not hold as stated: adding a group as its own child succeeds
and makes it its own descendant.  Counterexample on a one-group heap. -/
theorem addChildGroup_self_cycle_cex :
    "a" ∈ getAllChildGroups (addChildGroup selfHeap "a" "a") 1 "a" := by decide

/-- C4 amended.  The remove/clear primitives never add descendants, but
addChildGroup does not guard against cycles: for any group that is not
already its own direct child (and whose parent reference is not itself),
addChildGroup(g, g) appends g to its own child list, so g appears in
g.getAllChildGroups(). -/
theorem addChildGroup_self_creates_cycle (h : HeapF) (gid : GroupId) (g : GroupObj)
    (hg : h gid = some g) (hnotself : childGroupContains g gid = false)
    (hop : g.parentGroup ≠ some gid) :
    ∃ g', (addChildGroup h gid gid) gid = some g' ∧ gid ∈ g'.childGroups ∧
      gid ∈ getAllChildGroups (addChildGroup h gid gid) 1 gid := by
  have hstep : ∃ g2 : GroupObj,
      (match g.parentGroup with
        | some op => removeChildGroup h op gid
        | none => h) gid = some g2 ∧ g2.childGroups = g.childGroups := by
    cases hpg : g.parentGroup with
    | none => exact ⟨g, hg, rfl⟩
    | some op =>
      have hne : op ≠ gid := fun hcontra => hop (hcontra ▸ hpg)
      have hcg := removeChildGroup_childGroups_at h op gid hne
      rw [hg] at hcg
      cases hrc : (removeChildGroup h op gid) gid with
      | none => rw [hrc] at hcg; simp at hcg
      | some g2 =>
        rw [hrc] at hcg
        simp only [Option.map_some'] at hcg
        exact ⟨g2, hrc, Option.some.inj hcg⟩
  rcases hstep with ⟨g2, hg2, hcg2⟩
  have hfinal : (addChildGroup h gid gid) gid
      = some { g2 with childGroups := g2.childGroups ++ [gid], parentGroup := some gid } := by
    rw [addChildGroup_eq h gid gid g g hg hg hnotself]
    simp only [hUpdate_apply, if_pos rfl]
    rw [hg2]
    rfl
  refine ⟨_, hfinal, by simp, ?_⟩
  unfold getAllChildGroups
  rw [hfinal]
  exact List.mem_flatMap.mpr ⟨gid, by simp, by simp⟩

/-- Evaluation of C4's amended statement on the one-group heap. -/
theorem addChildGroup_self_creates_cycle_witness :
    selfHeap "a" = some { GroupObj.fresh with name := "A" } ∧
    childGroupContains { GroupObj.fresh with name := "A" } "a" = false ∧
    ({ GroupObj.fresh with name := "A" } : GroupObj).parentGroup ≠ some "a" ∧
    ∃ g', (addChildGroup selfHeap "a" "a") "a" = some g' ∧ "a" ∈ g'.childGroups ∧
      "a" ∈ getAllChildGroups (addChildGroup selfHeap "a" "a") 1 "a" :=
  ⟨by decide, by decide, by decide,
   addChildGroup_self_creates_cycle selfHeap "a" { GroupObj.fresh with name := "A" }
     (by decide) (by decide) (by decide)⟩

end FileFocus

namespace FileFocus

/-! ### Claims C3 and C5: lookups that fail after the state was touched -/

theorem rootGet_eq_none {m : Manager} {x : GroupId} (hx : m.root.contains x = false) :
    rootGet m x = none := by
  unfold rootGet
  rw [hx, if_neg Bool.false_ne_true]

theorem rootGet_pos {m : Manager} {x : GroupId} (hx : m.root.contains x = true) :
    rootGet m x = m.heap x := by
  unfold rootGet
  rw [hx, if_pos rfl]

/-- C3 fails as stated: moveGroup of a registered root group to an
unknown parent id returns false but does not leave the forest unchanged —
the group has already been removed from the root set. -/
theorem moveGroup_unknown_parent_cex :
    (moveGroup wm0 "a" (some "zz")).2 = false ∧
    "a" ∈ wm0.rootGroups ∧
    "a" ∉ (moveGroup wm0 "a" (some "zz")).1.rootGroups := by decide

/-- C3 amended.  For every registered group g and unknown (nonempty)
parent id p, moveGroup(g.id, p) returns false, but g has already been
detached: a root group is removed from the root set (and nothing else
changes), and a nested group is removed from its parent's child list with
its parent reference cleared. -/
theorem moveGroup_unknown_parent_detaches (m : Manager) (gid : GroupId) (g : GroupObj)
    (p : String) (hg : rootGet m gid = some g) (hp : p ≠ "")
    (hpr : m.root.contains p = false) :
    (moveGroup m gid (some p)).2 = false ∧
    (g.parentGroup = none →
      (moveGroup m gid (some p)).1 = { m with rootGroups := m.rootGroups.erase gid }) ∧
    (∀ q qobj, g.parentGroup = some q → q ≠ gid → m.heap q = some qobj →
      gid ∈ qobj.childGroups →
      (moveGroup m gid (some p)).1.heap q
          = some { qobj with childGroups := qobj.childGroups.erase gid } ∧
      (moveGroup m gid (some p)).1.heap gid
          = (m.heap gid).map (fun go => { go with parentGroup := none }) ∧
      (moveGroup m gid (some p)).1.rootGroups = m.rootGroups) := by
  have hred : ∀ m1 : Manager, m1.root = m.root →
      (if jsTruthy (some p) then
        match rootGet m1 ((some p).getD "") with
        | none => (m1, false)
        | some _ => (m1, true)
      else (m1, true)) = (m1, false) := by
    intro m1 hroot
    rw [jsTruthy_some hp, if_pos rfl, Option.getD_some]
    have : rootGet m1 p = none := by
      unfold rootGet
      rw [hroot, hpr, if_neg Bool.false_ne_true]
    rw [this]
  cases hpg : g.parentGroup with
  | none =>
    have hmain : moveGroup m gid (some p)
        = ({ m with rootGroups := m.rootGroups.erase gid }, false) := by
      have hrg : rootGet { m with rootGroups := m.rootGroups.erase gid } p = none := by
        unfold rootGet
        rw [show ({ m with rootGroups := m.rootGroups.erase gid } : Manager).root = m.root
          from rfl, hpr, if_neg Bool.false_ne_true]
      unfold moveGroup
      rw [hg]
      simp only [hpg]
      rw [jsTruthy_some hp, if_pos rfl, Option.getD_some, hrg]
    rw [hmain]
    refine ⟨rfl, fun _ => rfl, ?_⟩
    intro q qobj hq
    exact absurd hq (by simp)
  | some q0 =>
    have hmain : moveGroup m gid (some p)
        = ({ m with heap := removeChildGroup m.heap q0 gid }, false) := by
      have hrg : rootGet { m with heap := removeChildGroup m.heap q0 gid } p = none := by
        unfold rootGet
        rw [show ({ m with heap := removeChildGroup m.heap q0 gid } : Manager).root = m.root
          from rfl, hpr, if_neg Bool.false_ne_true]
      unfold moveGroup
      rw [hg]
      simp only [hpg]
      rw [jsTruthy_some hp, if_pos rfl, Option.getD_some, hrg]
    rw [hmain]
    refine ⟨rfl, ?_, ?_⟩
    · intro hcontra
      exact absurd hcontra (by simp)
    · intro q qobj hq hqne hheap hmem
      have hq' : q0 = q := Option.some.inj hq
      subst hq'
      rcases removeChildGroup_spec m.heap q0 gid qobj hheap hmem hqne with ⟨h1, h2, _⟩
      exact ⟨h1, h2, rfl⟩

/-- Evaluation of C3's amended statement: the root-group case on the
concrete manager. -/
theorem moveGroup_unknown_parent_detaches_witness :
    rootGet wm0 "a" = some { GroupObj.fresh with name := "A" } ∧
    ("zz" : String) ≠ "" ∧ wm0.root.contains "zz" = false ∧
    (moveGroup wm0 "a" (some "zz")).2 = false ∧
    (moveGroup wm0 "a" (some "zz")).1
      = { wm0 with rootGroups := wm0.rootGroups.erase "a" } := by
  refine ⟨by decide, by decide, by decide, ?_, ?_⟩
  · exact (moveGroup_unknown_parent_detaches wm0 "a" { GroupObj.fresh with name := "A" }
      "zz" (by decide) (by decide) (by decide)).1
  · exact (moveGroup_unknown_parent_detaches wm0 "a" { GroupObj.fresh with name := "A" }
      "zz" (by decide) (by decide) (by decide)).2.1 rfl

/-- C5 fails as stated: addGroup with a supplied but unresolvable parent
id does not treat the group as a new root — it is not added to
rootGroups. -/
theorem addGroup_unknown_parent_cex :
    "b" ∉ (addGroup wmB "b" "p1" (some "zz")).rootGroups ∧
    (addGroup wmB "b" "p1" (some "zz")).rootGroups = wmB.rootGroups := by decide

/-- C5 amended.  When the supplied (nonempty) parent id does not resolve,
addGroup attaches the group nowhere: rootGroups and the heap are
unchanged, so the group is neither a child nor a root.  It is still
always registered in the flattened map and the routing table, and it is
persisted through the provider routed for it when that provider id is
registered (a silent no-op otherwise). -/
theorem addGroup_unknown_parent (m : Manager) (gid : GroupId) (s p : String)
    (hp : p ≠ "") (hpr : m.root.contains p = false) :
    (addGroup m gid s (some p)).rootGroups = m.rootGroups ∧
    (addGroup m gid s (some p)).heap = m.heap ∧
    (addGroup m gid s (some p)).root = mapSet m.root gid ∧
    amGet (addGroup m gid s (some p)).storageMap gid = some s ∧
    (∀ P, getProvider m s = some P →
      (addGroup m gid s (some p)).saved = m.saved ++ [(P.id, gid)]) ∧
    (getProvider m s = none → (addGroup m gid s (some p)).saved = m.saved) := by
  have hstep : addGroup m gid s (some p)
      = saveGroupM { m with root := mapSet m.root gid,
                            storageMap := amSet m.storageMap gid s } gid := by
    unfold addGroup
    rw [jsTruthy_some hp, if_pos rfl, Option.getD_some, rootGet_eq_none hpr]
  have hget : amGet (amSet m.storageMap gid s) gid = some s := amGet_set_same _ _ _
  rw [hstep]
  unfold saveGroupM
  have hsm : ({ m with
      root := mapSet m.root gid,
      storageMap := amSet m.storageMap gid s } : Manager).storageMap
      = amSet m.storageMap gid s := rfl
  rw [hsm, hget, Option.getD_some]
  cases hP : getProvider { m with
      root := mapSet m.root gid,
      storageMap := amSet m.storageMap gid s } s with
  | none =>
    have hPm : getProvider m s = none := hP
    exact ⟨rfl, rfl, rfl, hget, fun P hcontra => absurd (hPm ▸ hcontra) (by simp),
      fun _ => rfl⟩
  | some P =>
    have hPm : getProvider m s = some P := hP
    refine ⟨rfl, rfl, rfl, hget, ?_, ?_⟩
    · intro P' hP'
      have : P = P' := Option.some.inj (hPm ▸ hP')
      subst this
      rfl
    · intro hcontra
      rw [hPm] at hcontra
      cases hcontra

/-- Evaluation of C5's amended statement on the concrete manager. -/
theorem addGroup_unknown_parent_witness :
    ("zz" : String) ≠ "" ∧ wmB.root.contains "zz" = false ∧
    ((addGroup wmB "b" "p1" (some "zz")).rootGroups = wmB.rootGroups ∧
     (addGroup wmB "b" "p1" (some "zz")).root = mapSet wmB.root "b" ∧
     amGet (addGroup wmB "b" "p1" (some "zz")).storageMap "b" = some "p1") ∧
    (addGroup wmB "b" "p1" (some "zz")).saved = wmB.saved ++ [("p1", "b")] := by
  have hmain := addGroup_unknown_parent wmB "b" "p1" "zz" (by decide) (by decide)
  exact ⟨by decide, by decide, ⟨hmain.1, hmain.2.2.1, hmain.2.2.2.1⟩,
    hmain.2.2.2.2.1 wP1 rfl⟩

end FileFocus

namespace FileFocus

/-! ### Claim C6: removeGroup on a group with two nested descendants -/

theorem rootGet_some_elim {m : Manager} {x : GroupId} {g : GroupObj}
    (h : rootGet m x = some g) : m.heap x = some g ∧ m.root.contains x = true := by
  unfold rootGet at h
  by_cases hc : m.root.contains x = true
  · rw [if_pos hc] at h
    exact ⟨h, hc⟩
  · rw [if_neg hc] at h
    cases h

theorem getProvider_id {m : Manager} {s : String} {P : Provider}
    (h : getProvider m s = some P) : P.id = s := by
  unfold getProvider at h
  exact beq_iff_eq.mp (@List.find?_some Provider (fun Q => Q.id == s) P m.providers h)

theorem getAllChildGroups_succ (h : HeapF) (fuel : Nat) (gid : GroupId) (g : GroupObj)
    (hg : h gid = some g) :
    getAllChildGroups h (fuel + 1) gid
      = g.childGroups.flatMap (fun c => c :: getAllChildGroups h fuel c) := by
  conv_lhs => rw [getAllChildGroups]
  rw [hg]

/-- The descendant walk of the chain gid -> c1 -> c2 with enough fuel. -/
theorem getAllChildGroups_chain (h : HeapF) (k : Nat) (gid c1 c2 : GroupId)
    (g g1 g2 : GroupObj) (hg : h gid = some g) (hc : g.childGroups = [c1])
    (hh1 : h c1 = some g1) (hc1 : g1.childGroups = [c2])
    (hh2 : h c2 = some g2) (hc2 : g2.childGroups = []) :
    getAllChildGroups h (k + 3) gid = [c1, c2] := by
  rw [show k + 3 = (k + 2) + 1 from rfl, getAllChildGroups_succ h (k + 2) gid g hg, hc]
  rw [show k + 2 = (k + 1) + 1 from rfl]
  simp only [List.flatMap_cons, List.flatMap_nil, List.append_nil]
  rw [getAllChildGroups_succ h (k + 1) c1 g1 hh1, hc1]
  simp only [List.flatMap_cons, List.flatMap_nil, List.append_nil]
  rw [getAllChildGroups_succ h k c2 g2 hh2, hc2]
  simp only [List.flatMap_nil]

/-- C6.  For a registered group whose subtree is the nested chain
g -> c1 -> c2 (two nested descendant groups) and whose routed provider is
registered, removeGroup(g.id) removes exactly the three entries g, c1, c2
from the flattened registry and the routing table (so the registry
shrinks by exactly 3) and issues exactly the three deleteGroupId calls
c1, c2, g to the owning provider; and removeGroup of an unknown id is a
no-op. -/
theorem removeGroup_two_descendants (m : Manager) (gid c1 c2 : GroupId)
    (g g1 g2 : GroupObj) (pid : String) (P : Provider) (fuel : Nat)
    (hg : rootGet m gid = some g)
    (hsm : amGet m.storageMap gid = some pid)
    (hP : getProvider m pid = some P)
    (hchain1 : g.childGroups = [c1]) (hh1 : m.heap c1 = some g1)
    (hchain2 : g1.childGroups = [c2]) (hh2 : m.heap c2 = some g2)
    (hchain3 : g2.childGroups = [])
    (hd1 : gid ≠ c1) (hd2 : gid ≠ c2) (hd3 : c1 ≠ c2)
    (hfuel : 3 ≤ fuel)
    (hpar : ∀ q, g.parentGroup = some q → q ≠ gid ∧ q ≠ c1 ∧ q ≠ c2 ∧
      ∃ qobj, m.heap q = some qobj ∧ gid ∈ qobj.childGroups) :
    (removeGroup m fuel gid).root = ((m.root.erase c1).erase c2).erase gid ∧
    (removeGroup m fuel gid).storageMap
        = amDelete (amDelete (amDelete m.storageMap c1) c2) gid ∧
    (removeGroup m fuel gid).deleted
        = m.deleted ++ [(pid, c1), (pid, c2), (pid, gid)] ∧
    (gid ∈ m.root → c1 ∈ m.root → c2 ∈ m.root →
      (removeGroup m fuel gid).root.length + 3 = m.root.length) ∧
    (∀ (mm : Manager) (f : Nat) (x : GroupId), rootGet mm x = none →
      removeGroup mm f x = mm) := by
  obtain ⟨k, rfl⟩ : ∃ k, fuel = k + 3 := ⟨fuel - 3, by omega⟩
  have hheap := (rootGet_some_elim hg).1
  have hPid := getProvider_id hP
  have hmain : (removeGroup m (k + 3) gid).root = ((m.root.erase c1).erase c2).erase gid ∧
      (removeGroup m (k + 3) gid).storageMap
        = amDelete (amDelete (amDelete m.storageMap c1) c2) gid ∧
      (removeGroup m (k + 3) gid).deleted
        = m.deleted ++ [(pid, c1), (pid, c2), (pid, gid)] := by
    cases hpg : g.parentGroup with
    | none =>
      have hkids : getAllChildGroups m.heap (k + 3) gid = [c1, c2] :=
        getAllChildGroups_chain m.heap k gid c1 c2 g g1 g2 hheap hchain1 hh1 hchain2 hh2 hchain3
      unfold removeGroup
      rw [hg]
      simp only [hpg, hsm, Option.getD_some, hP, hkids, List.foldl_cons, List.foldl_nil, hPid]
      refine ⟨?_, ?_, ?_⟩ <;> simp [List.append_assoc]
    | some q =>
      rcases hpar q hpg with ⟨hq1, hq2, hq3, qobj, hqheap, hqmem⟩
      rcases removeChildGroup_spec m.heap q gid qobj hqheap hqmem hq1 with ⟨hrq, hrg, hrf⟩
      have hg' : (removeChildGroup m.heap q gid) gid
          = some { g with parentGroup := none } := by
        rw [hrg, hheap]
        rfl
      have hkids : getAllChildGroups (removeChildGroup m.heap q gid) (k + 3) gid
          = [c1, c2] := by
        refine getAllChildGroups_chain _ k gid c1 c2 { g with parentGroup := none } g1 g2
          hg' (by simpa using hchain1) ?_ hchain2 ?_ hchain3
        · rw [hrf c1 (fun hcontra => hq2 hcontra.symm) (fun hcontra => hd1 hcontra.symm)]
          exact hh1
        · rw [hrf c2 (fun hcontra => hq3 hcontra.symm) (fun hcontra => hd2 hcontra.symm)]
          exact hh2
      unfold removeGroup
      rw [hg]
      simp only [hpg, hsm, Option.getD_some, hP, hkids, List.foldl_cons, List.foldl_nil, hPid]
      refine ⟨?_, ?_, ?_⟩ <;> simp [List.append_assoc]
  refine ⟨hmain.1, hmain.2.1, hmain.2.2, ?_, ?_⟩
  · intro hm1 hm2 hm3
    rw [hmain.1]
    have e1 : (m.root.erase c1).length = m.root.length - 1 := List.length_erase_of_mem hm2
    have m2' : c2 ∈ m.root.erase c1 := (List.mem_erase_of_ne (Ne.symm hd3)).mpr hm3
    have e2 : ((m.root.erase c1).erase c2).length = (m.root.erase c1).length - 1 :=
      List.length_erase_of_mem m2'
    have m3' : gid ∈ (m.root.erase c1).erase c2 :=
      (List.mem_erase_of_ne hd2).mpr ((List.mem_erase_of_ne hd1).mpr hm1)
    have e3 : (((m.root.erase c1).erase c2).erase gid).length
        = ((m.root.erase c1).erase c2).length - 1 := List.length_erase_of_mem m3'
    have p1 : 0 < (m.root.erase c1).length := List.length_pos_of_mem m2'
    have p2 : 0 < ((m.root.erase c1).erase c2).length := List.length_pos_of_mem m3'
    have p0 : 0 < m.root.length := List.length_pos_of_mem hm1
    omega
  · intro mm f x hx
    unfold removeGroup
    rw [hx]

/-- Evaluation of C6 on the concrete chain manager. -/
theorem removeGroup_two_descendants_witness :
    (removeGroup wmChain 3 "g").root
        = ((wmChain.root.erase "c1").erase "c2").erase "g" ∧
    (removeGroup wmChain 3 "g").deleted
        = wmChain.deleted ++ [("p1", "c1"), ("p1", "c2"), ("p1", "g")] ∧
    (removeGroup wmChain 3 "g").root.length + 3 = wmChain.root.length ∧
    (removeGroup wmChain 3 "g").root = [] := by
  have hmain := removeGroup_two_descendants wmChain "g" "c1" "c2"
    { GroupObj.fresh with name := "G", childGroups := ["c1"] }
    { GroupObj.fresh with name := "C1", childGroups := ["c2"], parentGroup := some "g" }
    { GroupObj.fresh with name := "C2", parentGroup := some "c1" }
    "p1" wP1 3 (by decide) (by decide) rfl (by decide) (by decide) (by decide) (by decide)
    (by decide) (by decide) (by decide) (by decide) (by decide)
    (by intro q hq; simp [GroupObj.fresh] at hq)
  refine ⟨hmain.1, hmain.2.2.1, hmain.2.2.2.1 (by decide) (by decide) (by decide), ?_⟩
  rw [hmain.1]
  decide

end FileFocus

namespace FileFocus

/-! ### Claim C7: loadAll merge and the reloadProvider frame property -/

/-- The id derivation is name-injective (distinct names yield distinct
ids). -/
theorem makeGroupId_inj {n1 n2 : String} (h : makeGroupId n1 = makeGroupId n2) :
    n1 = n2 := by
  unfold makeGroupId at h
  have hd : ("uuidv5:cc51e20a-7c32-434c-971f-5b3ea332deaa:" ++ n1).data
      = ("uuidv5:cc51e20a-7c32-434c-971f-5b3ea332deaa:" ++ n2).data := by rw [h]
  rw [String.data_append, String.data_append] at hd
  exact String.ext (List.append_cancel_left hd)

/-- C7.  In the two-provider scenario (each provider contributing one
root group, with distinct names), loadAll yields a flattened map and a
root set of size 2 holding both derived ids; and reloadProvider on the
first provider's id removes and re-merges only that provider's group:
the other provider's group keeps its heap object, its membership in the
flattened map and the root set, and its routing-table entry. -/
theorem loadAll_reloadProvider_frame
    (h0 : HeapF) (r0 rg0 : List GroupId) (d sv : List (String × GroupId))
    (n1 n2 p1 p2 : String) (g1 g2 : GroupObj)
    (hn : n1 ≠ n2) (hps : p1 ≠ p2)
    (hg1c : g1.childGroups = []) (hg1p : g1.parentGroup = none)
    (hg2c : g2.childGroups = []) (hg2p : g2.parentGroup = none) :
    (loadAll 2 (twoProviderScenario h0 r0 rg0 d sv n1 n2 p1 p2 g1 g2)).root
        = [makeGroupId n1, makeGroupId n2] ∧
    (loadAll 2 (twoProviderScenario h0 r0 rg0 d sv n1 n2 p1 p2 g1 g2)).rootGroups
        = [makeGroupId n1, makeGroupId n2] ∧
    (loadAll 2 (twoProviderScenario h0 r0 rg0 d sv n1 n2 p1 p2 g1 g2)).root.length = 2 ∧
    (loadAll 2 (twoProviderScenario h0 r0 rg0 d sv n1 n2 p1 p2 g1 g2)).rootGroups.length = 2 ∧
    (loadAll 2 (twoProviderScenario h0 r0 rg0 d sv n1 n2 p1 p2 g1 g2)).heap (makeGroupId n2)
        = some g2 ∧
    amGet (loadAll 2 (twoProviderScenario h0 r0 rg0 d sv n1 n2 p1 p2 g1 g2)).storageMap
        (makeGroupId n2) = some p2 ∧
    (reloadProvider 2 (loadAll 2 (twoProviderScenario h0 r0 rg0 d sv n1 n2 p1 p2 g1 g2))
        p1).heap (makeGroupId n2)
      = (loadAll 2 (twoProviderScenario h0 r0 rg0 d sv n1 n2 p1 p2 g1 g2)).heap
          (makeGroupId n2) ∧
    (reloadProvider 2 (loadAll 2 (twoProviderScenario h0 r0 rg0 d sv n1 n2 p1 p2 g1 g2))
        p1).root = [makeGroupId n2, makeGroupId n1] ∧
    (reloadProvider 2 (loadAll 2 (twoProviderScenario h0 r0 rg0 d sv n1 n2 p1 p2 g1 g2))
        p1).rootGroups = [makeGroupId n2, makeGroupId n1] ∧
    amGet (reloadProvider 2 (loadAll 2 (twoProviderScenario h0 r0 rg0 d sv n1 n2 p1 p2 g1 g2))
        p1).storageMap (makeGroupId n2) = some p2 ∧
    amGet (reloadProvider 2 (loadAll 2 (twoProviderScenario h0 r0 rg0 d sv n1 n2 p1 p2 g1 g2))
        p1).storageMap (makeGroupId n1) = some p1 := by
  have hab : makeGroupId n1 ≠ makeGroupId n2 := fun hc => hn (makeGroupId_inj hc)
  have hba : makeGroupId n2 ≠ makeGroupId n1 := Ne.symm hab
  have hsp : p2 ≠ p1 := Ne.symm hps
  refine ⟨?_, ?_, ?_, ?_, ?_, ?_, ?_, ?_, ?_, ?_, ?_⟩ <;>
    simp [twoProviderScenario, loadAll, reloadProvider, addGroupToMemory, mergeHeap,
      mapSet, amSet, amGet, amDelete, getProvider, hg1c, hg1p, hg2c, hg2p,
      hab, hba, hps, hsp]

/-- Evaluation of C7 on the concrete scenario. -/
theorem loadAll_reloadProvider_frame_witness :
    (loadAll 2 wmTwo).root.length = 2 ∧
    (loadAll 2 wmTwo).rootGroups.length = 2 ∧
    (reloadProvider 2 (loadAll 2 wmTwo) "pa").heap (makeGroupId "Beta")
      = (loadAll 2 wmTwo).heap (makeGroupId "Beta") ∧
    (reloadProvider 2 (loadAll 2 wmTwo) "pa").rootGroups
      = [makeGroupId "Beta", makeGroupId "Alpha"] ∧
    amGet (reloadProvider 2 (loadAll 2 wmTwo) "pa").storageMap (makeGroupId "Beta")
      = some "pb" := by
  have hmain := loadAll_reloadProvider_frame hEmpty [] [] [] [] "Alpha" "Beta" "pa" "pb"
    { GroupObj.fresh with name := "Alpha" } { GroupObj.fresh with name := "Beta" }
    (by decide) (by decide) rfl rfl rfl rfl
  exact ⟨hmain.2.2.1, hmain.2.2.2.1, hmain.2.2.2.2.2.2.1, hmain.2.2.2.2.2.2.2.2.1,
    hmain.2.2.2.2.2.2.2.2.2.1⟩

end FileFocus

namespace FileFocus

/-! ### Claim C8: the guarded one-time migration -/

/-! Keyed-store lemmas (same shape as the routing-table lemmas). -/

theorem lookup_setValue_same (s : Storage) (k : String) (v : StoreVal) :
    lookupStorage (setValue s k v) k = some v := by
  induction s with
  | nil => simp [setValue, lookupStorage, List.find?_cons]
  | cons kv s ih =>
    unfold setValue
    by_cases hkv : kv.1 = k
    · rw [if_pos hkv]
      simp [lookupStorage, List.find?_cons]
    · rw [if_neg hkv]
      unfold lookupStorage
      rw [List.find?_cons]
      have hb : (kv.1 == k) = false := by
        simp only [beq_eq_false_iff_ne, ne_eq]
        exact hkv
      rw [hb]
      exact ih

theorem lookup_setValue_other (s : Storage) (k : String) (v : StoreVal) (x : String)
    (hne : x ≠ k) : lookupStorage (setValue s k v) x = lookupStorage s x := by
  have hkx : (k == x) = false := by
    simp only [beq_eq_false_iff_ne, ne_eq]
    exact fun hcontra => hne hcontra.symm
  induction s with
  | nil => simp [setValue, lookupStorage, List.find?_cons, hkx]
  | cons kv s ih =>
    unfold setValue
    by_cases hkv : kv.1 = k
    · rw [if_pos hkv]
      unfold lookupStorage
      rw [List.find?_cons, List.find?_cons, hkx]
      have h2 : (kv.1 == x) = false := by rw [hkv]; exact hkx
      rw [h2]
    · rw [if_neg hkv]
      unfold lookupStorage
      rw [List.find?_cons, List.find?_cons]
      cases hx : kv.1 == x
      · exact ih
      · rfl

theorem lookup_deleteValue_same (s : Storage) (k : String) :
    lookupStorage (deleteValue s k) k = none := by
  induction s with
  | nil => rfl
  | cons kv s ih =>
    unfold deleteValue at ih ⊢
    rw [List.filter_cons]
    by_cases hkv : kv.1 = k
    · rw [if_neg (by subst hkv; simp)]
      exact ih
    · rw [if_pos (by simp only [bne_iff_ne, ne_eq]; exact hkv)]
      unfold lookupStorage
      rw [List.find?_cons]
      have hb : (kv.1 == k) = false := by
        simp only [beq_eq_false_iff_ne, ne_eq]
        exact hkv
      rw [hb]
      exact ih

theorem lookup_deleteValue_other (s : Storage) (k x : String) (hne : x ≠ k) :
    lookupStorage (deleteValue s k) x = lookupStorage s x := by
  induction s with
  | nil => rfl
  | cons kv s ih =>
    unfold deleteValue at ih ⊢
    rw [List.filter_cons]
    by_cases hkv : kv.1 = k
    · rw [if_neg (by subst hkv; simp)]
      unfold lookupStorage
      rw [List.find?_cons]
      have hb : (kv.1 == x) = false := by
        simp only [beq_eq_false_iff_ne, ne_eq]
        exact fun hcontra => hne (hcontra.symm.trans hkv)
      rw [hb]
      exact ih
    · rw [if_pos (by simp only [bne_iff_ne, ne_eq]; exact hkv)]
      unfold lookupStorage
      rw [List.find?_cons, List.find?_cons]
      cases hx : kv.1 == x
      · exact ih
      · rfl

theorem lookup_deleteValue_none (s : Storage) (k x : String)
    (hx : lookupStorage s x = none) : lookupStorage (deleteValue s k) x = none := by
  by_cases hxk : x = k
  · subst hxk
    exact lookup_deleteValue_same s x
  · rw [lookup_deleteValue_other s k x hxk]
    exact hx

/-- A fold of key deletions never resurrects an absent key. -/
theorem lookup_foldDelete_none (l : List (String × DeprecateGroupRecord)) :
    ∀ (s : Storage) (x : String), lookupStorage s x = none →
    lookupStorage (l.foldl (fun st kv => deleteValue st ("A-" ++ kv.2.id)) s) x = none := by
  induction l with
  | nil => exact fun s x hx => hx
  | cons kv l ih =>
    intro s x hx
    rw [List.foldl_cons]
    exact ih _ x (lookup_deleteValue_none s _ x hx)

/-- After folding the legacy-key deletions, every processed key is gone. -/
theorem lookup_foldDelete_mem (l : List (String × DeprecateGroupRecord)) :
    ∀ (s : Storage) (kv : String × DeprecateGroupRecord), kv ∈ l →
    lookupStorage (l.foldl (fun st kv => deleteValue st ("A-" ++ kv.2.id)) s)
      ("A-" ++ kv.2.id) = none := by
  induction l with
  | nil =>
    intro s kv hkv
    simp at hkv
  | cons kv' l ih =>
    intro s kv hkv
    rw [List.foldl_cons]
    rcases List.mem_cons.mp hkv with heq | htail
    · subst heq
      exact lookup_foldDelete_none l _ _ (lookup_deleteValue_same s _)
    · exact ih _ kv htail

/-- A fold of key deletions leaves unrelated keys alone. -/
theorem lookup_foldDelete_other (l : List (String × DeprecateGroupRecord)) :
    ∀ (s : Storage) (x : String), (∀ kv ∈ l, ("A-" ++ kv.2.id) ≠ x) →
    lookupStorage (l.foldl (fun st kv => deleteValue st ("A-" ++ kv.2.id)) s) x
      = lookupStorage s x := by
  induction l with
  | nil => exact fun s x _ => rfl
  | cons kv l ih =>
    intro s x hx
    rw [List.foldl_cons, ih _ x (fun kv' h => hx kv' (List.mem_cons_of_mem kv h)),
      lookup_deleteValue_other s _ x
        (fun hcontra => hx kv (List.mem_cons_self kv l) hcontra.symm)]

/-! Record-store lemmas. -/

theorem recGet_set_same (l : Store) (k : String) (r : GroupRecord) :
    recGet (recSet l k r) k = some r := by
  induction l with
  | nil => simp [recSet, recGet, List.find?_cons]
  | cons kv l ih =>
    unfold recSet
    by_cases hkv : kv.1 = k
    · rw [if_pos hkv]
      simp [recGet, List.find?_cons]
    · rw [if_neg hkv]
      unfold recGet
      rw [List.find?_cons]
      have hb : (kv.1 == k) = false := by
        simp only [beq_eq_false_iff_ne, ne_eq]
        exact hkv
      rw [hb]
      exact ih

theorem recGet_set_other (l : Store) (k : String) (r : GroupRecord) (x : String)
    (hne : x ≠ k) : recGet (recSet l k r) x = recGet l x := by
  have hkx : (k == x) = false := by
    simp only [beq_eq_false_iff_ne, ne_eq]
    exact fun hcontra => hne hcontra.symm
  induction l with
  | nil => simp [recSet, recGet, List.find?_cons, hkx]
  | cons kv l ih =>
    unfold recSet
    by_cases hkv : kv.1 = k
    · rw [if_pos hkv]
      unfold recGet
      rw [List.find?_cons, List.find?_cons, hkx]
      have h2 : (kv.1 == x) = false := by rw [hkv]; exact hkx
      rw [h2]
    · rw [if_neg hkv]
      unfold recGet
      rw [List.find?_cons, List.find?_cons]
      cases hx : kv.1 == x
      · exact ih
      · rfl

/-- Setting unrelated keys leaves a lookup alone. -/
theorem recGet_foldSet_other (f : String × DeprecateGroupRecord → GroupRecord)
    (l : List (String × DeprecateGroupRecord)) :
    ∀ (dm : Store) (x : String), (∀ kv ∈ l, kv.2.id ≠ x) →
    recGet (l.foldl (fun dm kv => recSet dm kv.2.id (f kv)) dm) x = recGet dm x := by
  induction l with
  | nil => exact fun dm x _ => rfl
  | cons kv l ih =>
    intro dm x hx
    rw [List.foldl_cons, ih _ x (fun kv' h => hx kv' (List.mem_cons_of_mem kv h)),
      recGet_set_other dm kv.2.id (f kv) x
        (fun hcontra => hx kv (List.mem_cons_self kv l) hcontra.symm)]

/-- After the conversion fold, every legacy record is mapped to its
converted form (legacy ids are store keys, hence pairwise distinct). -/
theorem recGet_foldSet_mem (f : String × DeprecateGroupRecord → GroupRecord)
    (l : List (String × DeprecateGroupRecord)) :
    ∀ (dm : Store) (kv : String × DeprecateGroupRecord), kv ∈ l →
    (l.map (fun kv => kv.2.id)).Nodup →
    recGet (l.foldl (fun dm kv => recSet dm kv.2.id (f kv)) dm) kv.2.id = some (f kv) := by
  induction l with
  | nil =>
    intro dm kv hkv
    simp at hkv
  | cons kv' l ih =>
    intro dm kv hkv hnd
    rw [List.foldl_cons]
    rcases List.mem_cons.mp hkv with heq | htail
    · subst heq
      have hrest : ∀ kv2 ∈ l, kv2.2.id ≠ kv.2.id := by
        intro kv2 h2 hcontra
        have hnotin := (List.nodup_cons.mp hnd).1
        have hmem2 : kv.2.id ∈ l.map (fun kv3 => kv3.2.id) := by
          rw [← hcontra]
          exact List.mem_map_of_mem (fun kv3 => kv3.2.id) h2
        exact hnotin hmem2
      rw [recGet_foldSet_other f l _ kv.2.id hrest]
      exact recGet_set_same dm kv.2.id (f kv)
    · exact ih _ kv htail (List.nodup_cons.mp hnd).2

/-- A legacy path-list key never collides with a reserved store key. -/
theorem aKey_ne (x : String) (k : String) (hk : k.data.head? ≠ some 'A') :
    ("A-" ++ x) ≠ k := by
  intro h
  have h1 : (("A-" ++ x).data).head? = some 'A' := by
    rw [String.data_append]
    rfl
  rw [h] at h1
  exact hk h1

/-- C8.  migrateStorageV1 runs at most once: when the version marker is
positive the call leaves the storage completely unchanged, so running it
twice equals running it once; a first run (marker unset) stamps the
marker, converts every legacy record into a current-format record in the
new store, and deletes all legacy keys. -/
theorem migrateStorageV1_once (s : Storage) :
    (getNum s "storeversion" 0 > 0 → migrateStorageV1 s = s) ∧
    migrateStorageV1 (migrateStorageV1 s) = migrateStorageV1 s ∧
    (getNum s "storeversion" 0 ≤ 0 →
      getNum (migrateStorageV1 s) "storeversion" 0 = 1 ∧
      lookupStorage (migrateStorageV1 s) "groupstore" = none ∧
      (∀ kv ∈ getDepMap s,
        lookupStorage (migrateStorageV1 s) ("A-" ++ kv.2.id) = none) ∧
      (((getDepMap s).map (fun kv => kv.2.id)).Nodup →
        ∀ kv ∈ getDepMap s,
          recGet (getGroupMap (migrateStorageV1 s)) kv.2.id
            = some (GroupRecord.mk kv.2.id kv.2.label
                ((getPaths s ("A-" ++ kv.2.id)).map (fun p => uriToResource (uriParse p)))
                none none))) := by
  have hskip : ∀ t : Storage, getNum t "storeversion" 0 > 0 → migrateStorageV1 t = t := by
    intro t ht
    unfold migrateStorageV1
    rw [if_pos ht]
  have hfirst : getNum s "storeversion" 0 ≤ 0 →
      migrateStorageV1 s
        = setValue
            (deleteValue
              ((getDepMap s).foldl (fun st kv => deleteValue st ("A-" ++ kv.2.id))
                (setValue s "groupmap"
                  (.gmap ((getDepMap s).foldl
                    (fun dm kv => recSet dm kv.2.id
                      (GroupRecord.mk kv.2.id kv.2.label
                        ((getPaths s ("A-" ++ kv.2.id)).map
                          (fun p => uriToResource (uriParse p))) none none))
                    (getGroupMap s)))))
              "groupstore")
            "storeversion" (.num 1) := by
    intro h
    unfold migrateStorageV1
    rw [if_neg (by omega)]
    rfl
  have hC : getNum s "storeversion" 0 ≤ 0 →
      getNum (migrateStorageV1 s) "storeversion" 0 = 1 ∧
      lookupStorage (migrateStorageV1 s) "groupstore" = none ∧
      (∀ kv ∈ getDepMap s,
        lookupStorage (migrateStorageV1 s) ("A-" ++ kv.2.id) = none) ∧
      (((getDepMap s).map (fun kv => kv.2.id)).Nodup →
        ∀ kv ∈ getDepMap s,
          recGet (getGroupMap (migrateStorageV1 s)) kv.2.id
            = some (GroupRecord.mk kv.2.id kv.2.label
                ((getPaths s ("A-" ++ kv.2.id)).map (fun p => uriToResource (uriParse p)))
                none none)) := by
    intro h
    rw [hfirst h]
    refine ⟨?_, ?_, ?_, ?_⟩
    · unfold getNum
      rw [lookup_setValue_same]
    · rw [lookup_setValue_other _ _ _ _ (by decide), lookup_deleteValue_same]
    · intro kv hkv
      rw [lookup_setValue_other _ _ _ _ (aKey_ne kv.2.id "storeversion" (by decide)),
        lookup_deleteValue_other _ _ _ (aKey_ne kv.2.id "groupstore" (by decide))]
      exact lookup_foldDelete_mem (getDepMap s) _ kv hkv
    · intro hnd kv hkv
      have hgm : getGroupMap (setValue
          (deleteValue
            ((getDepMap s).foldl (fun st kv => deleteValue st ("A-" ++ kv.2.id))
              (setValue s "groupmap"
                (.gmap ((getDepMap s).foldl
                  (fun dm kv => recSet dm kv.2.id
                    (GroupRecord.mk kv.2.id kv.2.label
                      ((getPaths s ("A-" ++ kv.2.id)).map
                        (fun p => uriToResource (uriParse p))) none none))
                  (getGroupMap s)))))
            "groupstore")
          "storeversion" (.num 1))
          = (getDepMap s).foldl
              (fun dm kv => recSet dm kv.2.id
                (GroupRecord.mk kv.2.id kv.2.label
                  ((getPaths s ("A-" ++ kv.2.id)).map
                    (fun p => uriToResource (uriParse p))) none none))
              (getGroupMap s) := by
        unfold getGroupMap
        rw [lookup_setValue_other _ _ _ _ (by decide),
          lookup_deleteValue_other _ _ _ (by decide),
          lookup_foldDelete_other (getDepMap s) _ "groupmap"
            (fun kv2 _ => aKey_ne kv2.2.id "groupmap" (by decide)),
          lookup_setValue_same]
      rw [hgm]
      exact recGet_foldSet_mem _ (getDepMap s) (getGroupMap s) kv hkv hnd
  refine ⟨hskip s, ?_, hC⟩
  by_cases h : getNum s "storeversion" 0 > 0
  · rw [hskip s h, hskip s h]
  · have h1 : getNum (migrateStorageV1 s) "storeversion" 0 = 1 := (hC (by omega)).1
    exact hskip (migrateStorageV1 s) (by omega)

end FileFocus

namespace FileFocus

/-- Evaluation of C8: a first run on a legacy storage converts the record,
deletes the legacy keys and stamps the marker; a storage with a positive
marker is left completely unchanged. -/
theorem migrateStorageV1_once_witness :
    getNum wStoreLegacy "storeversion" 0 ≤ 0 ∧
    getNum (migrateStorageV1 wStoreLegacy) "storeversion" 0 = 1 ∧
    lookupStorage (migrateStorageV1 wStoreLegacy) "groupstore" = none ∧
    lookupStorage (migrateStorageV1 wStoreLegacy) ("A-" ++ "g1") = none ∧
    getPaths wStoreLegacy ("A-" ++ "g1") = ["file:///a"] ∧
    recGet (getGroupMap (migrateStorageV1 wStoreLegacy)) "g1"
      = some (GroupRecord.mk "g1" "Alpha"
          ((getPaths wStoreLegacy ("A-" ++ "g1")).map (fun p => uriToResource (uriParse p)))
          none none) ∧
    getNum wStoreDone "storeversion" 0 > 0 ∧
    migrateStorageV1 wStoreDone = wStoreDone := by
  have hC := (migrateStorageV1_once wStoreLegacy).2.2 (by decide)
  refine ⟨by decide, hC.1, hC.2.1, ?_, by decide, ?_, by decide,
    (migrateStorageV1_once wStoreDone).1 (by decide)⟩
  · exact hC.2.2.1 ("g1", ⟨"g1", "Alpha"⟩) (by decide)
  · exact hC.2.2.2 (by decide) ("g1", ⟨"g1", "Alpha"⟩) (by decide)

end FileFocus

namespace FileFocus

/-! ### Claim C1: renameGroup replaces the group under the derived id -/

/-- Child operations leave every object other than the parent and the
child untouched, whether or not the detach found anything. -/
theorem removeChildGroup_frame (h : HeapF) (q cid x : GroupId)
    (hxq : x ≠ q) (hxc : x ≠ cid) : (removeChildGroup h q cid) x = h x := by
  cases hop : h q with
  | none => rw [removeChildGroup_eq_none h q cid hop]
  | some p =>
    cases hfi : p.childGroups.findIdx? (fun item => item == cid) with
    | none => rw [removeChildGroup_eq_nofind h q cid p hop hfi]
    | some i =>
      rw [removeChildGroup_eq_found h q cid p i hop hfi]
      simp only [hUpdate_apply, if_neg hxc, if_neg hxq]

/-- Overwriting the child's parent reference right after a detach gives
the same object whether or not the detach fired. -/
theorem removeChildGroup_setParent (h : HeapF) (q cid : GroupId) (v : Option GroupId)
    (hne : q ≠ cid) :
    ((removeChildGroup h q cid) cid).map (fun go => { go with parentGroup := v })
      = (h cid).map (fun go => { go with parentGroup := v }) := by
  cases hop : h q with
  | none => rw [removeChildGroup_eq_none h q cid hop]
  | some p =>
    cases hfi : p.childGroups.findIdx? (fun item => item == cid) with
    | none => rw [removeChildGroup_eq_nofind h q cid p hop hfi]
    | some i =>
      rw [removeChildGroup_eq_found h q cid p i hop hfi]
      simp only [hUpdate_apply, if_pos rfl, if_neg (fun hc : cid = q => hne hc.symm)]
      cases h cid <;> rfl

/-- A detach only rewrites the parent's child list: every other field of
the parent object is preserved. -/
theorem removeChildGroup_parent_shape (h : HeapF) (q cid : GroupId) (gobj : GroupObj)
    (hq : h q = some gobj) (hne : q ≠ cid) :
    ∃ cg, (removeChildGroup h q cid) q = some { gobj with childGroups := cg } := by
  cases hfi : gobj.childGroups.findIdx? (fun item => item == cid) with
  | none =>
    refine ⟨gobj.childGroups, ?_⟩
    rw [removeChildGroup_eq_nofind h q cid gobj hq hfi]
    exact hq
  | some i =>
    refine ⟨gobj.childGroups.eraseIdx i, ?_⟩
    rw [removeChildGroup_eq_found h q cid gobj i hq hfi]
    simp [hUpdate_apply, if_neg (fun hc : q = cid => hne hc), hq]

/-- The resource-copy loop of renameGroup: folding `addResource` over a
path-distinct resource list appends them all onto the target and touches
nothing else. -/
theorem foldAddResource (us : List Uri) :
    ∀ (h : HeapF) (nid : GroupId) (g : GroupObj),
    h nid = some g →
    List.Pairwise (fun a b => a.fsPath ≠ b.fsPath) (g.resources ++ us) →
    ((us.foldl (fun hh u => hUpdate hh nid (fun go => addResource go u)) h) nid
        = some { g with resources := g.resources ++ us }) ∧
    (∀ x, x ≠ nid →
      (us.foldl (fun hh u => hUpdate hh nid (fun go => addResource go u)) h) x = h x) := by
  induction us with
  | nil =>
    intro h nid g hg _
    exact ⟨by simpa using hg, fun x hx => rfl⟩
  | cons u us ih =>
    intro h nid g hg hp
    have hcross := (List.pairwise_append.mp hp).2.2
    have hnotc : resourceContains g u = false := by
      cases hc : resourceContains g u
      · rfl
      · exfalso
        unfold resourceContains at hc
        rw [List.any_eq_true] at hc
        obtain ⟨v, hv, hbeq⟩ := hc
        exact hcross v hv u (List.mem_cons_self u us) (beq_iff_eq.mp hbeq)
    have hstep : (hUpdate h nid (fun go => addResource go u)) nid
        = some { g with resources := g.resources ++ [u] } := by
      simp only [hUpdate_apply, if_pos rfl, hg, Option.map_some']
      rw [addResource, hnotc]
      simp
    have hpair' : List.Pairwise (fun a b => a.fsPath ≠ b.fsPath)
        (({ g with resources := g.resources ++ [u] } : GroupObj).resources ++ us) := by
      have : (({ g with resources := g.resources ++ [u] } : GroupObj).resources ++ us)
          = g.resources ++ u :: us := by simp
      rw [this]
      exact hp
    have ihapp := ih (hUpdate h nid (fun go => addResource go u)) nid
      { g with resources := g.resources ++ [u] } hstep hpair'
    rw [List.foldl_cons]
    refine ⟨?_, ?_⟩
    · rw [ihapp.1]
      simp
    · intro x hx
      rw [ihapp.2 x hx]
      simp only [hUpdate_apply, if_neg hx]

/-- The child-copy loop of renameGroup: folding `addChildGroup` over the
original's (distinct) children appends each to the target's child list
and re-points its parent reference, only ever shrinking the original's
child list and touching no other object. -/
theorem foldAddChild (cs : List GroupId) :
    ∀ (h : HeapF) (nid gid : GroupId) (d : GroupObj),
    h nid = some d →
    gid ≠ nid →
    (∀ c ∈ cs, c ≠ nid ∧ c ≠ gid ∧
      ∃ cobj, h c = some cobj ∧ cobj.parentGroup = some gid) →
    cs.Nodup →
    (∀ c ∈ cs, c ∉ d.childGroups) →
    ((cs.foldl (fun hh c => addChildGroup hh nid c) h) nid
        = some { d with childGroups := d.childGroups ++ cs }) ∧
    (∀ c cobj, c ∈ cs → h c = some cobj →
      (cs.foldl (fun hh c => addChildGroup hh nid c) h) c
        = some { cobj with parentGroup := some nid }) ∧
    (∀ gobj, h gid = some gobj →
      ∃ cg, (cs.foldl (fun hh c => addChildGroup hh nid c) h) gid
        = some { gobj with childGroups := cg }) ∧
    (∀ x, x ≠ nid → x ≠ gid → x ∉ cs →
      (cs.foldl (fun hh c => addChildGroup hh nid c) h) x = h x) := by
  induction cs with
  | nil =>
    intro h nid gid d hd hgn hcs hnd hsub
    refine ⟨by simpa using hd, ?_, ?_, ?_⟩
    · intro c cobj hc
      simp at hc
    · intro gobj hgobj
      exact ⟨gobj.childGroups, by simpa using hgobj⟩
    · intro x _ _ _
      rfl
  | cons c cs ih =>
    intro h nid gid d hd hgn hcs hnd hsub
    obtain ⟨hcn, hcg, cobj, hcobj, hcparent⟩ := hcs c (List.mem_cons_self c cs)
    have hnotmem : c ∉ cs := (List.nodup_cons.mp hnd).1
    have hncont : childGroupContains d c = false :=
      childGroupContains_eq_false d c (hsub c (List.mem_cons_self c cs))
    have hstep := addChildGroup_eq h nid c d cobj hd hcobj hncont
    rw [hcparent] at hstep
    have hs_nid : (addChildGroup h nid c) nid
        = some { d with childGroups := d.childGroups ++ [c] } := by
      rw [hstep]
      simp only [hUpdate_apply, if_neg (fun hc' : nid = c => hcn hc'.symm), if_pos rfl]
      rw [removeChildGroup_frame h gid c nid (fun hc' => hgn hc'.symm) (fun hc' => hcn hc'.symm),
        hd]
      rfl
    have hs_c : (addChildGroup h nid c) c = some { cobj with parentGroup := some nid } := by
      rw [hstep]
      simp only [hUpdate_apply, if_pos rfl, if_neg (fun hc' : c = nid => hcn hc')]
      rw [removeChildGroup_setParent h gid c (some nid) (fun hc' : gid = c => hcg hc'.symm),
        hcobj]
      rfl
    have hs_gid : ∀ gobj, h gid = some gobj →
        ∃ cg, (addChildGroup h nid c) gid = some { gobj with childGroups := cg } := by
      intro gobj hgobj
      rw [hstep]
      simp only [hUpdate_apply, if_neg (fun hc' : gid = c => hcg hc'.symm),
        if_neg (fun hc' : gid = nid => hgn hc')]
      exact removeChildGroup_parent_shape h gid c gobj hgobj (fun hc' : gid = c => hcg hc'.symm)
    have hs_frame : ∀ x, x ≠ nid → x ≠ gid → x ≠ c → (addChildGroup h nid c) x = h x := by
      intro x hxn hxg hxc
      rw [hstep]
      simp only [hUpdate_apply, if_neg hxc, if_neg hxn]
      exact removeChildGroup_frame h gid c x hxg hxc
    have ihapp := ih (addChildGroup h nid c) nid gid
      { d with childGroups := d.childGroups ++ [c] } hs_nid hgn
      (by
        intro c' hc'
        obtain ⟨h1', h2', cobj', hcobj', hpar'⟩ := hcs c' (List.mem_cons_of_mem c hc')
        have hc'c : c' ≠ c := fun hcontra => hnotmem (hcontra ▸ hc')
        exact ⟨h1', h2', cobj', by rw [hs_frame c' h1' h2' hc'c]; exact hcobj', hpar'⟩)
      (List.nodup_cons.mp hnd).2
      (by
        intro c' hc' hmem
        rcases List.mem_append.mp hmem with hmem | hmem
        · exact hsub c' (List.mem_cons_of_mem c hc') hmem
        · have : c' = c := by simpa using hmem
          exact hnotmem (this ▸ hc'))
    rw [List.foldl_cons]
    refine ⟨?_, ?_, ?_, ?_⟩
    · rw [ihapp.1]
      simp
    · intro c' cobj' hc' hcobj'
      rcases List.mem_cons.mp hc' with heq | htail
      · subst heq
        have : cobj' = cobj := Option.some.inj (hcobj'.symm.trans hcobj)
        subst this
        rw [ihapp.2.2.2 c' hcn hcg hnotmem]
        exact hs_c
      · have hc'c : c' ≠ c := fun hcontra => hnotmem (hcontra ▸ htail)
        obtain ⟨h1', h2', cobj2, hcobj2, hpar2⟩ := hcs c' (List.mem_cons_of_mem c htail)
        refine ihapp.2.1 c' cobj' htail ?_
        rw [hs_frame c' h1' h2' hc'c]
        exact hcobj'
    · intro gobj hgobj
      obtain ⟨cg1, hcg1⟩ := hs_gid gobj hgobj
      obtain ⟨cg2, hcg2⟩ := ihapp.2.2.1 { gobj with childGroups := cg1 } hcg1
      exact ⟨cg2, hcg2⟩
    · intro x hxn hxg hxcs
      have hxc : x ≠ c := fun hcontra => hxcs (hcontra ▸ List.mem_cons_self c cs)
      have hxcs' : x ∉ cs := fun hcontra => hxcs (List.mem_cons_of_mem c hcontra)
      rw [ihapp.2.2.2 x hxn hxg hxcs', hs_frame x hxn hxg hxc]

end FileFocus

namespace FileFocus

theorem mem_mapSet_iff (l : List GroupId) (k x : GroupId) :
    x ∈ mapSet l k ↔ x ∈ l ∨ x = k := by
  by_cases h : k ∈ l
  · rw [mapSet_of_mem h]
    constructor
    · exact Or.inl
    · rintro (h' | rfl)
      · exact h'
      · exact h
  · rw [mapSet_of_not_mem h]
    simp

/-- C1.  For every group registered in the flattened map and routed to a
registered provider, and every new name whose derived id is not already
registered, renameGroup(g.id, newName) replaces the group: the old id no
longer resolves; the derived id resolves to a new Group carrying the new
name, the original's readonly flag and all its direct resources; every
former direct child is re-parented onto the new Group; and the original's
former parent lists the new Group (not the original) among its children,
while a root group's place in the root set is taken by the new Group. -/
theorem renameGroup_replaces (m : Manager) (gid : GroupId) (name : String)
    (src : GroupObj) (pid : String) (prov : Provider)
    (hsm : amGet m.storageMap gid = some pid)
    (hP : getProvider m pid = some prov)
    (hg : rootGet m gid = some src)
    (hNr : makeGroupId name ∉ m.root)
    (hNh : m.heap (makeGroupId name) = none)
    (hres : List.Pairwise (fun a b => a.fsPath ≠ b.fsPath) src.resources)
    (hknd : src.childGroups.Nodup)
    (hkids : ∀ c ∈ src.childGroups, c ≠ gid ∧
      ∃ cobj, m.heap c = some cobj ∧ cobj.parentGroup = some gid)
    (hpar : ∀ p, src.parentGroup = some p → p ≠ gid ∧ p ∉ src.childGroups ∧
      ∃ pobj, m.heap p = some pobj ∧ gid ∈ pobj.childGroups ∧
        pobj.childGroups.Nodup ∧ makeGroupId name ∉ pobj.childGroups)
    (hrnd : m.root.Nodup) :
    (rootGet (renameGroup m gid name) gid = none ∧
      gid ∉ (renameGroup m gid name).root) ∧
    ((renameGroup m gid name).heap (makeGroupId name)
        = some { name := name, readonly := src.readonly, resources := src.resources,
                 childGroups := src.childGroups, parentGroup := src.parentGroup } ∧
      makeGroupId name ∈ (renameGroup m gid name).root) ∧
    (∀ c cobj, c ∈ src.childGroups → m.heap c = some cobj →
      (renameGroup m gid name).heap c
        = some { cobj with parentGroup := some (makeGroupId name) }) ∧
    (src.parentGroup = none → m.rootGroups.Nodup →
      makeGroupId name ∈ (renameGroup m gid name).rootGroups ∧
      gid ∉ (renameGroup m gid name).rootGroups) ∧
    (∀ p pobj, src.parentGroup = some p → m.heap p = some pobj →
      (renameGroup m gid name).heap p
          = some { pobj with childGroups :=
              (pobj.childGroups.erase gid) ++ [makeGroupId name] } ∧
      makeGroupId name ∈ ((pobj.childGroups.erase gid) ++ [makeGroupId name]) ∧
      gid ∉ ((pobj.childGroups.erase gid) ++ [makeGroupId name])) := by
  have hheap : m.heap gid = some src := (rootGet_some_elim hg).1
  have hPid : prov.id = pid := getProvider_id hP
  have hNgid : makeGroupId name ≠ gid := by
    intro hc
    rw [hc, hheap] at hNh
    cases hNh
  have hgidN : gid ≠ makeGroupId name := Ne.symm hNgid
  have h0gid : (hInsert m.heap (makeGroupId name)
      { name := name, readonly := src.readonly, resources := [], childGroups := [],
        parentGroup := none }) gid = some src := by
    rw [hInsert_apply, if_neg hgidN]
    exact hheap
  have h0N : (hInsert m.heap (makeGroupId name)
      { name := name, readonly := src.readonly, resources := [], childGroups := [],
        parentGroup := none }) (makeGroupId name)
      = some { name := name, readonly := src.readonly, resources := [], childGroups := [],
               parentGroup := none } := by
    rw [hInsert_apply, if_pos rfl]
  have hres' : List.Pairwise (fun a b => a.fsPath ≠ b.fsPath)
      (({ name := name, readonly := src.readonly, resources := [], childGroups := [],
          parentGroup := none } : GroupObj).resources ++ src.resources) := hres
  have hfold1 := foldAddResource src.resources
    (hInsert m.heap (makeGroupId name)
      { name := name, readonly := src.readonly, resources := [], childGroups := [],
        parentGroup := none })
    (makeGroupId name)
    { name := name, readonly := src.readonly, resources := [], childGroups := [],
      parentGroup := none } h0N hres'
  have h1gid : (src.resources.foldl
      (fun hh u => hUpdate hh (makeGroupId name) (fun go => addResource go u))
      (hInsert m.heap (makeGroupId name)
        { name := name, readonly := src.readonly, resources := [], childGroups := [],
          parentGroup := none })) gid = some src := by
    rw [hfold1.2 gid hgidN]
    exact h0gid
  have h1N : (src.resources.foldl
      (fun hh u => hUpdate hh (makeGroupId name) (fun go => addResource go u))
      (hInsert m.heap (makeGroupId name)
        { name := name, readonly := src.readonly, resources := [], childGroups := [],
          parentGroup := none })) (makeGroupId name)
      = some { name := name, readonly := src.readonly, resources := src.resources,
               childGroups := [], parentGroup := none } := hfold1.1
  have hkids' : ∀ c ∈ src.childGroups, c ≠ makeGroupId name ∧ c ≠ gid ∧
      ∃ cobj, (src.resources.foldl
        (fun hh u => hUpdate hh (makeGroupId name) (fun go => addResource go u))
        (hInsert m.heap (makeGroupId name)
          { name := name, readonly := src.readonly, resources := [], childGroups := [],
            parentGroup := none })) c = some cobj ∧ cobj.parentGroup = some gid := by
    intro c hc
    obtain ⟨hcgid, cobj, hcobj, hparc⟩ := hkids c hc
    have hcN : c ≠ makeGroupId name := by
      intro hcontra
      rw [hcontra, hNh] at hcobj
      cases hcobj
    refine ⟨hcN, hcgid, cobj, ?_, hparc⟩
    rw [hfold1.2 c hcN, hInsert_apply, if_neg hcN]
    exact hcobj
  have hfold2 := foldAddChild src.childGroups
    (src.resources.foldl
      (fun hh u => hUpdate hh (makeGroupId name) (fun go => addResource go u))
      (hInsert m.heap (makeGroupId name)
        { name := name, readonly := src.readonly, resources := [], childGroups := [],
          parentGroup := none }))
    (makeGroupId name) gid
    { name := name, readonly := src.readonly, resources := src.resources,
      childGroups := [], parentGroup := none } h1N hgidN hkids' hknd
    (by intro c hc; simp)
  obtain ⟨cgW, h2gidW⟩ := hfold2.2.2.1 src h1gid
  have h2N := hfold2.1
  have h2frame := hfold2.2.2.2
  have hgetN : amGet (amSet (amDelete m.storageMap gid) (makeGroupId name) pid)
      (makeGroupId name) = some pid := amGet_set_same _ _ _
  have hPfind : m.providers.find? (fun Q => Q.id == pid) = some prov := hP
  have hchild : ∀ c cobj, c ∈ src.childGroups → m.heap c = some cobj →
      (src.childGroups.foldl (fun hh c => addChildGroup hh (makeGroupId name) c)
        (src.resources.foldl
          (fun hh u => hUpdate hh (makeGroupId name) (fun go => addResource go u))
          (hInsert m.heap (makeGroupId name)
            { name := name, readonly := src.readonly, resources := [], childGroups := [],
              parentGroup := none }))) c
        = some { cobj with parentGroup := some (makeGroupId name) } := by
    intro c cobj hc hcobj
    obtain ⟨hcN, hcgid, cobj2, hc1, hparc⟩ := hkids' c hc
    have hceq : cobj2 = cobj := by
      have hsame : m.heap c = some cobj2 := by
        rw [← hc1, hfold1.2 c hcN, hInsert_apply, if_neg hcN]
      exact Option.some.inj (hsame.symm.trans hcobj)
    subst hceq
    exact hfold2.2.1 c cobj2 hc hc1
  cases hpg : src.parentGroup with
  | none =>
    have hred : renameGroup m gid name
        = { m with
            heap := src.childGroups.foldl
              (fun hh c => addChildGroup hh (makeGroupId name) c)
              (src.resources.foldl
                (fun hh u => hUpdate hh (makeGroupId name) (fun go => addResource go u))
                (hInsert m.heap (makeGroupId name)
                  { name := name, readonly := src.readonly, resources := [],
                    childGroups := [], parentGroup := none })),
            root := mapSet (m.root.erase gid) (makeGroupId name),
            rootGroups := mapSet (m.rootGroups.erase gid) (makeGroupId name),
            storageMap := amSet (amDelete m.storageMap gid) (makeGroupId name) prov.id,
            deleted := m.deleted ++ [(prov.id, gid)],
            saved := m.saved ++ [(prov.id, makeGroupId name)] } := by
      unfold renameGroup
      rw [hsm, Option.getD_some, hP, hg]
      simp only [GroupObj.fresh, h0gid, h1gid, h2gidW, hpg, if_true]
      unfold saveGroupM getProvider
      simp only [hgetN, Option.getD_some, hPid, hPfind]
    rw [hred]
    refine ⟨⟨?_, ?_⟩, ⟨?_, ?_⟩, ?_, ?_, ?_⟩
    · apply rootGet_eq_none
      apply contains_eq_false_of_not_mem
      intro hmem
      rcases (mem_mapSet_iff _ _ _).mp hmem with hmem | hmem
      · exact ((List.Nodup.mem_erase_iff hrnd).mp hmem).1 rfl
      · exact hNgid hmem.symm
    · intro hmem
      rcases (mem_mapSet_iff _ _ _).mp hmem with hmem | hmem
      · exact ((List.Nodup.mem_erase_iff hrnd).mp hmem).1 rfl
      · exact hNgid hmem.symm
    · exact h2N
    · exact mem_mapSet_self _ _
    · intro c cobj hc hcobj
      exact hchild c cobj hc hcobj
    · intro _ hrgnd
      refine ⟨mem_mapSet_self _ _, ?_⟩
      intro hmem
      rcases (mem_mapSet_iff _ _ _).mp hmem with hmem | hmem
      · exact ((List.Nodup.mem_erase_iff hrgnd).mp hmem).1 rfl
      · exact hNgid hmem.symm
    · intro p pobj hcontra
      exact absurd hcontra (by simp)
  | some p0 =>
    obtain ⟨hp0gid, hp0cs, pobj, hp0heap, hp0mem, hp0nd, hp0N⟩ := hpar p0 hpg
    have hp0Nne : p0 ≠ makeGroupId name := by
      intro hcontra
      rw [hcontra, hNh] at hp0heap
      cases hp0heap
    have hNp0 : makeGroupId name ≠ p0 := Ne.symm hp0Nne
    have h2p0 : (src.childGroups.foldl (fun hh c => addChildGroup hh (makeGroupId name) c)
        (src.resources.foldl
          (fun hh u => hUpdate hh (makeGroupId name) (fun go => addResource go u))
          (hInsert m.heap (makeGroupId name)
            { name := name, readonly := src.readonly, resources := [], childGroups := [],
              parentGroup := none }))) p0 = some pobj := by
      rw [h2frame p0 hp0Nne hp0gid hp0cs, hfold1.2 p0 hp0Nne, hInsert_apply, if_neg hp0Nne]
      exact hp0heap
    have hrem := removeChildGroup_spec _ p0 gid pobj h2p0 hp0mem hp0gid
    have hremN : (removeChildGroup
        (src.childGroups.foldl (fun hh c => addChildGroup hh (makeGroupId name) c)
          (src.resources.foldl
            (fun hh u => hUpdate hh (makeGroupId name) (fun go => addResource go u))
            (hInsert m.heap (makeGroupId name)
              { name := name, readonly := src.readonly, resources := [], childGroups := [],
                parentGroup := none }))) p0 gid) (makeGroupId name)
        = some { name := name, readonly := src.readonly, resources := src.resources,
                 childGroups := [] ++ src.childGroups, parentGroup := none } := by
      rw [hrem.2.2 (makeGroupId name) hNp0 hNgid]
      exact h2N
    have hremp0 : (removeChildGroup
        (src.childGroups.foldl (fun hh c => addChildGroup hh (makeGroupId name) c)
          (src.resources.foldl
            (fun hh u => hUpdate hh (makeGroupId name) (fun go => addResource go u))
            (hInsert m.heap (makeGroupId name)
              { name := name, readonly := src.readonly, resources := [], childGroups := [],
                parentGroup := none }))) p0 gid) p0
        = some { pobj with childGroups := pobj.childGroups.erase gid } := hrem.1
    have hadd := addChildGroup_spec_noparent _ p0 (makeGroupId name)
      { pobj with childGroups := pobj.childGroups.erase gid }
      { name := name, readonly := src.readonly, resources := src.resources,
        childGroups := [] ++ src.childGroups, parentGroup := none }
      hremp0 hremN
      (by
        intro hmem
        exact hp0N (List.mem_of_mem_erase hmem))
      rfl hp0Nne
    have hred : renameGroup m gid name
        = { m with
            heap := addChildGroup
              (removeChildGroup
                (src.childGroups.foldl (fun hh c => addChildGroup hh (makeGroupId name) c)
                  (src.resources.foldl
                    (fun hh u => hUpdate hh (makeGroupId name) (fun go => addResource go u))
                    (hInsert m.heap (makeGroupId name)
                      { name := name, readonly := src.readonly, resources := [],
                        childGroups := [], parentGroup := none }))) p0 gid)
              p0 (makeGroupId name),
            root := mapSet (m.root.erase gid) (makeGroupId name),
            rootGroups := m.rootGroups,
            storageMap := amSet (amDelete m.storageMap gid) (makeGroupId name) prov.id,
            deleted := m.deleted ++ [(prov.id, gid)],
            saved := m.saved ++ [(prov.id, makeGroupId name)] } := by
      unfold renameGroup
      rw [hsm, Option.getD_some, hP, hg]
      simp only [GroupObj.fresh, h0gid, h1gid, h2gidW, hpg, reduceCtorEq, if_false]
      unfold saveGroupM getProvider
      simp only [hgetN, Option.getD_some, hPid, hPfind]
    have hchild2 : ∀ c cobj, c ∈ src.childGroups → m.heap c = some cobj →
        (addChildGroup
          (removeChildGroup
            (src.childGroups.foldl (fun hh c => addChildGroup hh (makeGroupId name) c)
              (src.resources.foldl
                (fun hh u => hUpdate hh (makeGroupId name) (fun go => addResource go u))
                (hInsert m.heap (makeGroupId name)
                  { name := name, readonly := src.readonly, resources := [],
                    childGroups := [], parentGroup := none }))) p0 gid)
          p0 (makeGroupId name)) c
          = some { cobj with parentGroup := some (makeGroupId name) } := by
      intro c cobj hc hcobj
      have hcp0 : c ≠ p0 := fun hcontra => hp0cs (hcontra ▸ hc)
      have hcN : c ≠ makeGroupId name := by
        intro hcontra
        rw [hcontra, hNh] at hcobj
        cases hcobj
      have hcgid : c ≠ gid := (hkids c hc).1
      rw [hadd.2.2 c hcp0 hcN, hrem.2.2 c hcp0 hcgid]
      exact hchild c cobj hc hcobj
    rw [hred]
    refine ⟨⟨?_, ?_⟩, ⟨?_, ?_⟩, ?_, ?_, ?_⟩
    · apply rootGet_eq_none
      apply contains_eq_false_of_not_mem
      intro hmem
      rcases (mem_mapSet_iff _ _ _).mp hmem with hmem | hmem
      · exact ((List.Nodup.mem_erase_iff hrnd).mp hmem).1 rfl
      · exact hNgid hmem.symm
    · intro hmem
      rcases (mem_mapSet_iff _ _ _).mp hmem with hmem | hmem
      · exact ((List.Nodup.mem_erase_iff hrnd).mp hmem).1 rfl
      · exact hNgid hmem.symm
    · exact hadd.2.1
    · exact mem_mapSet_self _ _
    · exact hchild2
    · intro hcontra
      exact absurd hcontra (by simp)
    · intro p pobj2 hpeq hpheap
      have hpp0 : p = p0 := (Option.some.inj hpeq).symm
      subst hpp0
      have hpo : pobj2 = pobj := Option.some.inj (hpheap.symm.trans hp0heap)
      subst hpo
      refine ⟨hadd.1, by simp, ?_⟩
      intro hmem
      rcases List.mem_append.mp hmem with hmem | hmem
      · exact ((List.Nodup.mem_erase_iff hp0nd).mp hmem).1 rfl
      · have : gid = makeGroupId name := by simpa using hmem
        exact hgidN this

end FileFocus

namespace FileFocus

/-- Evaluation of C1 on the chain manager: renaming the middle group,
which has both a parent and a child. -/
theorem renameGroup_replaces_witness :
    rootGet (renameGroup wmChain "c1" "New") "c1" = none ∧
    (renameGroup wmChain "c1" "New").heap (makeGroupId "New")
      = some { name := "New", readonly := false, resources := [],
               childGroups := ["c2"], parentGroup := some "g" } ∧
    makeGroupId "New" ∈ (renameGroup wmChain "c1" "New").root ∧
    (renameGroup wmChain "c1" "New").heap "c2"
      = some { name := "C2", readonly := false, resources := [], childGroups := [],
               parentGroup := some (makeGroupId "New") } ∧
    (renameGroup wmChain "c1" "New").heap "g"
      = some { name := "G", readonly := false, resources := [],
               childGroups := (["c1"].erase "c1") ++ [makeGroupId "New"],
               parentGroup := none } ∧
    "c1" ∉ ((["c1"].erase "c1") ++ [makeGroupId "New"]) := by
  have hmain := renameGroup_replaces wmChain "c1" "New"
    { GroupObj.fresh with name := "C1", childGroups := ["c2"], parentGroup := some "g" }
    "p1" wP1 (by decide) rfl (by decide) (by decide) (by decide)
    List.Pairwise.nil (by decide)
    (by
      intro c hc
      have hc2 : c = "c2" := by simpa using hc
      subst hc2
      exact ⟨by decide, { GroupObj.fresh with name := "C2", parentGroup := some "c1" },
        by decide, rfl⟩)
    (by
      intro p hp
      have hp' : "g" = p := Option.some.inj hp
      subst hp'
      exact ⟨by decide, by decide,
        { GroupObj.fresh with name := "G", childGroups := ["c1"] },
        by decide, by decide, by decide, by decide⟩)
    (by decide)
  have hg := hmain.2.2.2.2 "g" { GroupObj.fresh with name := "G", childGroups := ["c1"] }
    rfl (by decide)
  exact ⟨hmain.1.1, hmain.2.1.1, hmain.2.1.2,
    hmain.2.2.1 "c2" { GroupObj.fresh with name := "C2", parentGroup := some "c1" }
      (by decide) (by decide),
    hg.1, hg.2.2⟩

end FileFocus

namespace FileFocus

/-! ### Round-trip helpers: store, option and tree bookkeeping -/

/-- `Map.set` with a fresh key appends. -/
theorem recSet_append_of_not_mem (store : Store) (k : String) (r : GroupRecord)
    (h : ∀ kv ∈ store, kv.1 ≠ k) :
    recSet store k r = store ++ [(k, r)] := by
  induction store with
  | nil => rfl
  | cons kv rest ih =>
    simp only [recSet, if_neg (h kv (List.mem_cons_self kv rest))]
    rw [ih (fun kv' hkv' => h kv' (List.mem_cons_of_mem kv hkv'))]
    rfl

/-- Destructing a successful `mapM` over a cons cell. -/
theorem mapM_cons_some {α β : Type} (f : α → Option β) (a : α) (l : List α) (r : List β)
    (h : (a :: l).mapM f = some r) :
    ∃ b bs, f a = some b ∧ l.mapM f = some bs ∧ r = b :: bs := by
  rw [List.mapM_cons] at h
  cases hfa : f a with
  | none => rw [hfa] at h; simp at h
  | some b =>
    rw [hfa] at h
    cases hl : l.mapM f with
    | none => rw [hl] at h; simp at h
    | some bs =>
      rw [hl] at h
      simp at h
      exact ⟨b, bs, rfl, rfl, h.symm⟩

/-- Every element produced by a successful `mapM` comes from some input. -/
theorem mapM_mem_some {α β : Type} (f : α → Option β) :
    ∀ (l : List α) (r : List β), l.mapM f = some r → ∀ b ∈ r, ∃ a ∈ l, f a = some b := by
  intro l
  induction l with
  | nil =>
    intro r h b hb
    simp only [List.mapM_nil] at h
    cases h
    simp at hb
  | cons a l ih =>
    intro r h b hb
    obtain ⟨b0, bs, hfa, hl, rfl⟩ := mapM_cons_some f a l r h
    rcases List.mem_cons.mp hb with rfl | hb'
    · exact ⟨a, List.mem_cons_self a l, hfa⟩
    · obtain ⟨a', ha', hfa'⟩ := ih bs hl b hb'
      exact ⟨a', List.mem_cons_of_mem a ha', hfa'⟩

/-- `mapM` over the ids of trees that the function reproduces. -/
theorem mapM_of_forall_id (f : String → Option GTree) :
    ∀ (cl : List GTree), (∀ tc ∈ cl, f tc.id = some tc) →
    (cl.map GTree.id).mapM f = some cl := by
  intro cl
  induction cl with
  | nil => intro _; rfl
  | cons tc cl ih =>
    intro hall
    rw [List.map_cons, List.mapM_cons, hall tc (List.mem_cons_self tc cl),
      ih (fun tc' h => hall tc' (List.mem_cons_of_mem tc h))]
    rfl

/-- Destructing a successful `treeOf`. -/
theorem treeOf_succ_elim {h : HeapF} {fuel : Nat} {gid : GroupId} {t : GTree}
    (ht : treeOf h (fuel + 1) gid = some t) :
    ∃ g cs, h gid = some g ∧ g.childGroups.mapM (treeOf h fuel) = some cs ∧
      t = GTree.node gid g.name g.resources cs := by
  cases hg : h gid with
  | none => simp [treeOf, hg] at ht
  | some g =>
    simp only [treeOf, hg] at ht
    obtain ⟨cs, hcs, hteq⟩ := Option.map_eq_some'.mp ht
    exact ⟨g, cs, rfl, hcs, hteq.symm⟩

/-- An extracted tree is rooted at the id it was extracted from. -/
theorem treeOf_root_id {h : HeapF} {fuel : Nat} {gid : GroupId} {t : GTree}
    (ht : treeOf h fuel gid = some t) : t.id = gid := by
  cases fuel with
  | zero => simp [treeOf] at ht
  | succ fuel =>
    obtain ⟨g, cs, _, _, rfl⟩ := treeOf_succ_elim ht
    rfl

/-- Destructing a well-formed subtree. -/
theorem wf_succ_elim {h : HeapF} {fuel : Nat} {gid : GroupId}
    (hw : wfSubtree h (fuel + 1) gid = true) :
    ∃ g, h gid = some g ∧ distinctPaths g.resources = true ∧
      (∀ c ∈ g.childGroups,
        (∃ cg, h c = some cg ∧ cg.parentGroup = some gid) ∧ wfSubtree h fuel c = true) := by
  cases hg : h gid with
  | none => simp [wfSubtree, hg] at hw
  | some g =>
    simp only [wfSubtree, hg, Bool.and_eq_true, List.all_eq_true] at hw
    refine ⟨g, rfl, hw.1, ?_⟩
    intro c hc
    have hc2 := hw.2 c hc
    refine ⟨?_, hc2.2⟩
    have hc1 := hc2.1
    cases hcg : h c with
    | none => rw [hcg] at hc1; simp at hc1
    | some cg =>
      rw [hcg] at hc1
      exact ⟨cg, rfl, by simpa using hc1⟩

theorem GTree.ids_eq (t : GTree) : t.ids = t.id :: GTree.idsList t.children := by
  cases t
  rfl

theorem GTree.id_mem_ids (t : GTree) : t.id ∈ t.ids := by
  cases t with
  | node i n rs cs => simp [GTree.ids, GTree.id]

/-- A member tree's ids are among the forest's ids. -/
theorem mem_idsList_of_mem {cl : List GTree} {tc : GTree} (h : tc ∈ cl) :
    ∀ y ∈ tc.ids, y ∈ GTree.idsList cl := by
  induction cl with
  | nil => cases h
  | cons a cl ih =>
    intro y hy
    rcases List.mem_cons.mp h with rfl | h'
    · simp only [GTree.idsList, List.mem_append]
      exact Or.inl hy
    · simp only [GTree.idsList, List.mem_append]
      exact Or.inr (ih h' y hy)

/-- The root ids of a forest are among the forest's ids. -/
theorem map_id_subset_idsList (cl : List GTree) : ∀ y ∈ cl.map GTree.id, y ∈ GTree.idsList cl := by
  intro y hy
  obtain ⟨tc, htc, rfl⟩ := List.mem_map.mp hy
  exact mem_idsList_of_mem htc tc.id (GTree.id_mem_ids tc)

/-- With no duplicate ids in a forest, the root ids are distinct. -/
theorem map_id_nodup {cl : List GTree} (h : (GTree.idsList cl).Nodup) :
    (cl.map GTree.id).Nodup := by
  induction cl with
  | nil => exact List.nodup_nil
  | cons a cl ih =>
    rw [GTree.idsList, List.nodup_append] at h
    obtain ⟨h1, h2, h3⟩ := h
    rw [List.map_cons, List.nodup_cons]
    refine ⟨?_, ih h2⟩
    intro hmem
    exact h3 (GTree.id_mem_ids a) (map_id_subset_idsList cl a.id hmem)

theorem recordOfTree_id (t : GTree) (par : Option String) :
    (recordOfTree t par).id = t.id := by
  cases t
  rfl

theorem recordOfTree_parentId (t : GTree) (par : Option String) :
    (recordOfTree t par).parentId = par := by
  cases t
  rfl

theorem recordOfTreeList_map_id (cl : List GTree) (i : String) :
    (recordOfTreeList cl i).map GroupRecord.id = cl.map GTree.id := by
  induction cl with
  | nil => rfl
  | cons tc cl ih =>
    simp only [recordOfTreeList, List.map_cons, recordOfTree_id, ih]

theorem flatRecsOpt_if (l : List GroupRecord) :
    flatRecsOpt (if l.isEmpty then none else some l) = flatRecsList l := by
  cases l with
  | nil => rfl
  | cons r rs => rfl

theorem flatRecsList_cons (r : GroupRecord) (rs' : List GroupRecord) :
    flatRecsList (r :: rs') = flatRecs r ++ flatRecsList rs' := rfl

/-- The flattened store image of a tree's record: the root entry followed
by the flattened child segments. -/
theorem flatRecs_node (i n : String) (rs : List Uri) (cs : List GTree) (par : Option String) :
    flatRecs (recordOfTree (.node i n rs cs) par)
      = (i, recordOfTree (.node i n rs cs) par)
          :: flatRecsList (recordOfTreeList cs i) := by
  simp only [recordOfTree, flatRecs]
  rw [flatRecsOpt_if]

theorem bareAt_iff (H : HeapF) (t : GTree) :
    bareAt H t ↔
      (H t.id = some { name := t.name, readonly := false, resources := t.resources,
                       childGroups := [], parentGroup := none } ∧
       bareAtList H t.children) := by
  cases t
  simp [bareAt, GTree.id, GTree.name, GTree.resources, GTree.children]

theorem linkedAt_iff (H : HeapF) (t : GTree) (par : Option String) :
    linkedAt H t par ↔
      (H t.id = some { name := t.name, readonly := false, resources := t.resources,
                       childGroups := t.children.map GTree.id, parentGroup := par } ∧
       linkedAtList H t.children t.id) := by
  cases t
  simp [linkedAt, GTree.id, GTree.name, GTree.resources, GTree.children]

theorem rootBare_iff (H : HeapF) (t : GTree) (par : Option String) :
    rootBare H t par ↔
      (H t.id = some { name := t.name, readonly := false, resources := t.resources,
                       childGroups := [], parentGroup := par } ∧
       bareAtList H t.children) := by
  cases t
  simp [rootBare, GTree.id, GTree.name, GTree.resources, GTree.children]

theorem rootBare_of_bareAt {H : HeapF} {t : GTree} (h : bareAt H t) : rootBare H t none := by
  cases t
  exact h

theorem bareAtList_mem {H : HeapF} :
    ∀ (cl : List GTree), bareAtList H cl → ∀ tc ∈ cl, bareAt H tc := by
  intro cl
  induction cl with
  | nil =>
    intro _ tc htc
    cases htc
  | cons a cl ih =>
    intro h tc htc
    rcases List.mem_cons.mp htc with rfl | h'
    · exact h.1
    · exact ih h.2 tc h'

end FileFocus

namespace FileFocus

/-- `createGroupRecord` on a well-formed subtree serializes exactly the
extracted tree, with the live parent reference as `parentId`. -/
theorem createGroupRecord_spec (fuel : Nat) :
    ∀ (h : HeapF) (gid : GroupId) (t : GTree) (g : GroupObj),
    wfSubtree h fuel gid = true → treeOf h fuel gid = some t → h gid = some g →
    createGroupRecord h fuel gid = some (recordOfTree t g.parentGroup) := by
  induction fuel with
  | zero =>
    intro h gid t g hw ht hg
    simp [treeOf] at ht
  | succ fuel ih =>
    intro h gid t g hw ht hg
    obtain ⟨g', cs, hg', hcs, rfl⟩ := treeOf_succ_elim ht
    rw [hg] at hg'
    cases Option.some.inj hg'
    obtain ⟨g2, hg2, hdp, hchild⟩ := wf_succ_elim hw
    rw [hg] at hg2
    cases Option.some.inj hg2
    have hlist : ∀ (cl : List GroupId) (ts : List GTree),
        cl.mapM (treeOf h fuel) = some ts →
        (∀ c ∈ cl, (∃ cg, h c = some cg ∧ cg.parentGroup = some gid) ∧
          wfSubtree h fuel c = true) →
        cl.filterMap (createGroupRecord h fuel) = recordOfTreeList ts gid := by
      intro cl
      induction cl with
      | nil =>
        intro ts hts _
        simp only [List.mapM_nil] at hts
        cases hts
        rfl
      | cons c cl ihl =>
        intro ts hts hall
        obtain ⟨tc, tcs, htc, htcs, rfl⟩ := mapM_cons_some _ c cl ts hts
        obtain ⟨⟨cg, hcg, hcgp⟩, hcwf⟩ := hall c (List.mem_cons_self c cl)
        have hrec := ih h c tc cg hcwf htc hcg
        rw [hcgp] at hrec
        simp only [List.filterMap_cons, hrec, recordOfTreeList]
        exact congrArg _ (ihl tcs htcs (fun c' hc' => hall c' (List.mem_cons_of_mem c hc')))
    have hrecs := hlist g.childGroups cs hcs hchild
    simp only [createGroupRecord, hg, hrecs, recordOfTree]

/-- The keys of the flattened image of a tree's record are exactly the
tree's ids, both as entry keys and as the stored records' own ids. -/
theorem flatRecs_ids (fuel : Nat) :
    ∀ (h : HeapF) (gid : GroupId) (t : GTree) (par : Option String),
    treeOf h fuel gid = some t →
    ((flatRecs (recordOfTree t par)).map (fun kv => kv.1) = t.ids ∧
     (flatRecs (recordOfTree t par)).map (fun kv => kv.2.id) = t.ids) := by
  induction fuel with
  | zero =>
    intro h gid t par ht
    simp [treeOf] at ht
  | succ fuel ih =>
    intro h gid t par ht
    obtain ⟨g, cs, hg, hcs, rfl⟩ := treeOf_succ_elim ht
    have hlist : ∀ (cl : List GTree) (i : String),
        (∀ tc ∈ cl, ∃ c, treeOf h fuel c = some tc) →
        ((flatRecsList (recordOfTreeList cl i)).map (fun kv => kv.1) = GTree.idsList cl ∧
         (flatRecsList (recordOfTreeList cl i)).map (fun kv => kv.2.id) = GTree.idsList cl) := by
      intro cl
      induction cl with
      | nil =>
        intro i _
        exact ⟨rfl, rfl⟩
      | cons tc cl ihl =>
        intro i hall
        obtain ⟨c, hc⟩ := hall tc (List.mem_cons_self tc cl)
        have htc := ih h c tc (some i) hc
        have hrest := ihl i (fun tc' h' => hall tc' (List.mem_cons_of_mem tc h'))
        simp only [recordOfTreeList, flatRecsList_cons, List.map_append, GTree.idsList]
        exact ⟨by rw [htc.1, hrest.1], by rw [htc.2, hrest.2]⟩
    have hmem : ∀ tc ∈ cs, ∃ c, treeOf h fuel c = some tc := by
      intro tc htc
      obtain ⟨c, hc1, hc2⟩ := mapM_mem_some _ _ _ hcs tc htc
      exact ⟨c, hc2⟩
    have hl := hlist cs gid hmem
    rw [flatRecs_node]
    constructor
    · simp only [List.map_cons, GTree.ids, hl.1]
    · simp only [List.map_cons, recordOfTree_id, GTree.ids, GTree.id, hl.2]

/-- Saving a tree's record into a store whose keys avoid the tree's
(distinct) ids appends the flattened image of the record. -/
theorem saveRec_flat (fuel : Nat) :
    ∀ (h : HeapF) (gid : GroupId) (t : GTree) (par : Option String) (store : Store),
    treeOf h fuel gid = some t →
    t.ids.Nodup →
    (∀ k ∈ t.ids, ∀ kv ∈ store, kv.1 ≠ k) →
    saveGroupRecordRecursive store (recordOfTree t par)
      = store ++ flatRecs (recordOfTree t par) := by
  induction fuel with
  | zero =>
    intro h gid t par store ht
    simp [treeOf] at ht
  | succ fuel ih =>
    intro h gid t par store ht hnd hdisj
    obtain ⟨g, cs, hg, hcs, rfl⟩ := treeOf_succ_elim ht
    have hmem : ∀ tc ∈ cs, ∃ c, treeOf h fuel c = some tc := by
      intro tc htc
      obtain ⟨c, hc1, hc2⟩ := mapM_mem_some _ _ _ hcs tc htc
      exact ⟨c, hc2⟩
    rw [GTree.ids_eq, List.nodup_cons] at hnd
    have hgid_notin : (GTree.node gid g.name g.resources cs).id ∉
        GTree.idsList (GTree.node gid g.name g.resources cs).children := hnd.1
    have hlist : ∀ (cl : List GTree) (st : Store),
        (∀ tc ∈ cl, ∃ c, treeOf h fuel c = some tc) →
        (GTree.idsList cl).Nodup →
        (∀ k ∈ GTree.idsList cl, ∀ kv ∈ st, kv.1 ≠ k) →
        saveRecordList st (recordOfTreeList cl gid)
          = st ++ flatRecsList (recordOfTreeList cl gid) := by
      intro cl
      induction cl with
      | nil =>
        intro st _ _ _
        simp [recordOfTreeList, saveRecordList, flatRecsList]
      | cons tc cl ihl =>
        intro st hall hndl hdisjl
        obtain ⟨c, hc⟩ := hall tc (List.mem_cons_self tc cl)
        rw [GTree.idsList, List.nodup_append] at hndl
        obtain ⟨hnd1, hnd2, hdisj12⟩ := hndl
        have hstep := ih h c tc (some gid) st hc hnd1
          (fun k hk kv hkv => hdisjl k
            (by rw [GTree.idsList, List.mem_append]; exact Or.inl hk) kv hkv)
        have hkeys := (flatRecs_ids fuel h c tc (some gid) hc).1
        simp only [recordOfTreeList, saveRecordList, hstep]
        rw [ihl (st ++ flatRecs (recordOfTree tc (some gid)))
          (fun tc' h' => hall tc' (List.mem_cons_of_mem tc h'))
          hnd2
          (by
            intro k hk kv hkv
            rcases List.mem_append.mp hkv with hst | hfl
            · exact hdisjl k (by rw [GTree.idsList, List.mem_append]; exact Or.inr hk) kv hst
            · have : kv.1 ∈ tc.ids := by
                rw [← hkeys]
                exact List.mem_map_of_mem (fun kv => kv.1) hfl
              intro hcontra
              rw [hcontra] at this
              exact hdisj12 this hk)]
        rw [flatRecsList_cons, List.append_assoc]
    cases cs with
    | nil =>
      have hrec : recordOfTree (GTree.node gid g.name g.resources []) par
          = .mk gid g.name (g.resources.map uriToResource) none par := by
        simp [recordOfTree, recordOfTreeList]
      rw [hrec]
      exact recSet_append_of_not_mem store gid _
        (fun kv hkv => hdisj gid (by simp [GTree.ids]) kv hkv)
    | cons tc0 cl0 =>
      have hrec : recordOfTree (GTree.node gid g.name g.resources (tc0 :: cl0)) par
          = .mk gid g.name (g.resources.map uriToResource)
              (some (recordOfTreeList (tc0 :: cl0) gid)) par := by
        simp [recordOfTree, recordOfTreeList]
      rw [hrec]
      have hs1 : recSet store gid (GroupRecord.mk gid g.name
            (g.resources.map uriToResource) (some (recordOfTreeList (tc0 :: cl0) gid)) par)
          = store ++ [(gid, GroupRecord.mk gid g.name (g.resources.map uriToResource)
              (some (recordOfTreeList (tc0 :: cl0) gid)) par)] :=
        recSet_append_of_not_mem store gid _
          (fun kv hkv => hdisj gid (by simp [GTree.ids]) kv hkv)
      show saveRecordList (recSet store gid _) (recordOfTreeList (tc0 :: cl0) gid) = _
      rw [hs1]
      rw [hlist (tc0 :: cl0) _ hmem hnd.2
        (by
          intro k hk kv hkv
          rcases List.mem_append.mp hkv with hst | hone
          · exact hdisj k (by rw [GTree.ids_eq]; exact List.mem_cons_of_mem _ hk) kv hst
          · have hgid_notin' : gid ∉ GTree.idsList (tc0 :: cl0) := hgid_notin
            have : kv = (gid, GroupRecord.mk gid g.name (g.resources.map uriToResource)
                (some (recordOfTreeList (tc0 :: cl0) gid)) par) := by simpa using hone
            rw [this]
            intro hcontra
            have hgk : gid = k := hcontra
            rw [← hgk] at hk
            exact hgid_notin' hk)]
      simp only [flatRecs, flatRecsOpt]
      rw [List.append_assoc]
      rfl

end FileFocus

namespace FileFocus

/-- Lookup after the first load pass: with distinct record ids the fold
yields each record's bare group at its id and the initial heap elsewhere. -/
theorem pass1_fold_lookup :
    ∀ (store : Store) (h0 : HeapF) (x : GroupId),
    (store.map (fun kv => kv.2.id)).Nodup →
    ((∀ kv ∈ store, kv.2.id = x →
        store.foldl (fun hh kv => hInsert hh kv.2.id (createGroupFromRecord kv.2)) h0 x
          = some (createGroupFromRecord kv.2)) ∧
     (x ∉ store.map (fun kv => kv.2.id) →
        store.foldl (fun hh kv => hInsert hh kv.2.id (createGroupFromRecord kv.2)) h0 x
          = h0 x)) := by
  intro store
  induction store with
  | nil =>
    intro h0 x _
    exact ⟨fun kv hkv => absurd hkv (List.not_mem_nil kv), fun _ => rfl⟩
  | cons kv0 store ih =>
    intro h0 x hnd
    rw [List.map_cons, List.nodup_cons] at hnd
    have ihapp := ih (hInsert h0 kv0.2.id (createGroupFromRecord kv0.2)) x hnd.2
    rw [List.foldl_cons]
    constructor
    · intro kv hkv hid
      rcases List.mem_cons.mp hkv with heq | htail
      · subst heq
        have hx : x ∉ store.map (fun kv => kv.2.id) := by
          rw [← hid]
          exact hnd.1
        rw [ihapp.2 hx, hInsert_apply, if_pos hid.symm]
      · exact ihapp.1 kv htail hid
    · intro hx
      rw [List.map_cons, List.mem_cons] at hx
      push_neg at hx
      rw [ihapp.2 hx.2, hInsert_apply, if_neg hx.1]

/-- Lookup in the heap produced by the first load pass. -/
theorem loadPassOne_lookup (S : Store) (x : GroupId)
    (hnd : (S.map (fun kv => kv.2.id)).Nodup) :
    (∀ kv ∈ S, kv.2.id = x → loadPassOne S x = some (createGroupFromRecord kv.2)) ∧
    (x ∉ S.map (fun kv => kv.2.id) → loadPassOne S x = none) := by
  have hmain := pass1_fold_lookup S hEmpty x hnd
  exact ⟨hmain.1, fun hx => hmain.2 hx⟩

/-- `distinctPaths` is pairwise distinctness of normalized paths. -/
theorem distinctPaths_pairwise : ∀ (l : List Uri), distinctPaths l = true →
    List.Pairwise (fun a b => a.fsPath ≠ b.fsPath) l := by
  intro l
  induction l with
  | nil =>
    intro _
    exact List.Pairwise.nil
  | cons u us ih =>
    intro h
    rw [distinctPaths, Bool.and_eq_true, List.all_eq_true] at h
    refine List.Pairwise.cons ?_ (ih h.2)
    intro v hv
    have hne : v.fsPath ≠ u.fsPath := by simpa using h.1 v hv
    exact fun hc => hne hc.symm

/-- Folding `addResource` over path-distinct resources appends them. -/
theorem foldl_addResource_obj (us : List Uri) :
    ∀ (g : GroupObj),
    List.Pairwise (fun a b => a.fsPath ≠ b.fsPath) (g.resources ++ us) →
    us.foldl addResource g = { g with resources := g.resources ++ us } := by
  induction us with
  | nil =>
    intro g _
    simp
  | cons u us ih =>
    intro g hp
    have hcross := (List.pairwise_append.mp hp).2.2
    have hnotc : resourceContains g u = false := by
      cases hc : resourceContains g u
      · rfl
      · exfalso
        unfold resourceContains at hc
        rw [List.any_eq_true] at hc
        obtain ⟨v, hv, hbeq⟩ := hc
        exact hcross v hv u (List.mem_cons_self u us) (beq_iff_eq.mp hbeq)
    have hstep : addResource g u = { g with resources := g.resources ++ [u] } := by
      rw [addResource, hnotc]
      simp
    have hpair' : List.Pairwise (fun a b => a.fsPath ≠ b.fsPath)
        (({ g with resources := g.resources ++ [u] } : GroupObj).resources ++ us) := by
      have heq : (({ g with resources := g.resources ++ [u] } : GroupObj).resources ++ us)
          = g.resources ++ u :: us := by simp
      rw [heq]
      exact hp
    rw [List.foldl_cons, hstep, ih _ hpair']
    simp

/-- `createGroupFromRecord` on a serialized record rebuilds the bare group:
the name and (path-distinct) resources survive, links are left empty. -/
theorem createGroupFromRecord_eq (i n : String) (rs : List Uri)
    (C : Option (List GroupRecord)) (par : Option String)
    (hdp : distinctPaths rs = true) :
    createGroupFromRecord (.mk i n (rs.map uriToResource) C par)
      = { name := n, readonly := false, resources := rs, childGroups := [],
          parentGroup := none } := by
  unfold createGroupFromRecord
  simp only [GroupRecord.resources, GroupRecord.name]
  rw [List.foldl_map]
  show rs.foldl addResource { GroupObj.fresh with name := n } = _
  have hpair : List.Pairwise (fun a b => a.fsPath ≠ b.fsPath)
      (({ GroupObj.fresh with name := n } : GroupObj).resources ++ rs) := by
    simpa [GroupObj.fresh] using distinctPaths_pairwise rs hdp
  rw [foldl_addResource_obj rs _ hpair]
  simp [GroupObj.fresh]

/-- After the first load pass over a store containing the flattened image
of a well-formed subtree (with distinct record ids), every node of the
subtree is present as a bare group. -/
theorem pass1_gives_bare (fuel : Nat) :
    ∀ (h : HeapF) (gid : GroupId) (t : GTree) (par : Option String) (S : Store),
    wfSubtree h fuel gid = true →
    treeOf h fuel gid = some t →
    (S.map (fun kv => kv.2.id)).Nodup →
    (∀ kv ∈ flatRecs (recordOfTree t par), kv ∈ S) →
    bareAt (loadPassOne S) t := by
  induction fuel with
  | zero =>
    intro h gid t par S hw ht _ _
    simp [treeOf] at ht
  | succ fuel ih =>
    intro h gid t par S hw ht hnd hsub
    obtain ⟨g, cs, hg, hcs, rfl⟩ := treeOf_succ_elim ht
    obtain ⟨g2, hg2, hdp, hchild⟩ := wf_succ_elim hw
    rw [hg] at hg2
    cases Option.some.inj hg2
    have hhead : ((gid, recordOfTree (GTree.node gid g.name g.resources cs) par)) ∈ S := by
      apply hsub
      rw [flatRecs_node]
      exact List.mem_cons_self _ _
    have hrootid : (recordOfTree (GTree.node gid g.name g.resources cs) par).id = gid := by
      rw [recordOfTree_id]
      rfl
    have hcreate : createGroupFromRecord (recordOfTree (GTree.node gid g.name g.resources cs) par)
        = { name := g.name, readonly := false, resources := g.resources, childGroups := [],
            parentGroup := none } := by
      simp only [recordOfTree]
      exact createGroupFromRecord_eq gid g.name g.resources _ par hdp
    rw [bareAt_iff]
    constructor
    · have hlook := (loadPassOne_lookup S gid hnd).1 _ hhead hrootid
      rw [hcreate] at hlook
      exact hlook
    · show bareAtList (loadPassOne S) cs
      have hforest : ∀ (cl : List GTree),
          (∀ tc ∈ cl, ∃ c ∈ g.childGroups, treeOf h fuel c = some tc) →
          (∀ kv ∈ flatRecsList (recordOfTreeList cl gid), kv ∈ S) →
          bareAtList (loadPassOne S) cl := by
        intro cl
        induction cl with
        | nil =>
          intro _ _
          exact trivial
        | cons tc cl ihl =>
          intro hcert hsubl
          obtain ⟨c, hcmem, hc⟩ := hcert tc (List.mem_cons_self tc cl)
          have hhd := ih h c tc (some gid) S (hchild c hcmem).2 hc hnd
            (by
              intro kv hkv
              apply hsubl
              rw [recordOfTreeList, flatRecsList_cons, List.mem_append]
              exact Or.inl hkv)
          have htl := ihl (fun tc' h' => hcert tc' (List.mem_cons_of_mem tc h'))
            (by
              intro kv hkv
              apply hsubl
              rw [recordOfTreeList, flatRecsList_cons, List.mem_append]
              exact Or.inr hkv)
          exact ⟨hhd, htl⟩
      exact hforest cs (mapM_mem_some _ _ _ hcs)
        (by
          intro kv hkv
          apply hsub
          rw [flatRecs_node]
          exact List.mem_cons_of_mem _ hkv)

end FileFocus

namespace FileFocus

/-- Bareness of a subtree only depends on the heap at the subtree's ids. -/
theorem bareAt_congr (fuel : Nat) :
    ∀ (h : HeapF) (c : GroupId) (t : GTree) (H1 H2 : HeapF),
    treeOf h fuel c = some t →
    (∀ y ∈ t.ids, H2 y = H1 y) →
    bareAt H1 t → bareAt H2 t := by
  induction fuel with
  | zero =>
    intro h c t H1 H2 ht _ _
    simp [treeOf] at ht
  | succ fuel ih =>
    intro h c t H1 H2 ht hagree hb
    obtain ⟨g, cs, hg, hcs, rfl⟩ := treeOf_succ_elim ht
    rw [bareAt_iff] at hb ⊢
    refine ⟨?_, ?_⟩
    · rw [hagree _ (GTree.id_mem_ids _)]
      exact hb.1
    · show bareAtList H2 cs
      have hbl : bareAtList H1 cs := hb.2
      have hagree' : ∀ y ∈ GTree.idsList cs, H2 y = H1 y := by
        intro y hy
        apply hagree
        rw [GTree.ids_eq]
        exact List.mem_cons_of_mem _ hy
      have hforest : ∀ (cl : List GTree),
          (∀ tc ∈ cl, ∃ c', treeOf h fuel c' = some tc) →
          (∀ y ∈ GTree.idsList cl, H2 y = H1 y) →
          bareAtList H1 cl → bareAtList H2 cl := by
        intro cl
        induction cl with
        | nil =>
          intro _ _ _
          exact trivial
        | cons tc cl ihl =>
          intro hcert hag hbl1
          obtain ⟨c', hc'⟩ := hcert tc (List.mem_cons_self tc cl)
          refine ⟨ih h c' tc H1 H2 hc'
              (fun y hy => hag y (by rw [GTree.idsList, List.mem_append]; exact Or.inl hy))
              hbl1.1,
            ihl (fun tc' h' => hcert tc' (List.mem_cons_of_mem tc h'))
              (fun y hy => hag y (by rw [GTree.idsList, List.mem_append]; exact Or.inr hy))
              hbl1.2⟩
      exact hforest cs
        (fun tc htc => (mapM_mem_some _ _ _ hcs tc htc).elim (fun a ha => ⟨a, ha.2⟩))
        hagree' hbl

/-- List version of `bareAt_congr`, for forests whose trees were all
extracted from some heap. -/
theorem bareAtList_congr (fuel : Nat) (h : HeapF) :
    ∀ (cl : List GTree) (H1 H2 : HeapF),
    (∀ tc ∈ cl, ∃ c, treeOf h fuel c = some tc) →
    (∀ y ∈ GTree.idsList cl, H2 y = H1 y) →
    bareAtList H1 cl → bareAtList H2 cl := by
  intro cl
  induction cl with
  | nil =>
    intro H1 H2 _ _ _
    exact trivial
  | cons tc cl ihl =>
    intro H1 H2 hcert hag hb
    obtain ⟨c, hc⟩ := hcert tc (List.mem_cons_self tc cl)
    exact ⟨bareAt_congr fuel h c tc H1 H2 hc
        (fun y hy => hag y (by rw [GTree.idsList, List.mem_append]; exact Or.inl hy)) hb.1,
      ihl H1 H2 (fun tc' h' => hcert tc' (List.mem_cons_of_mem tc h'))
        (fun y hy => hag y (by rw [GTree.idsList, List.mem_append]; exact Or.inr hy)) hb.2⟩

/-- Linkedness of a subtree only depends on the heap at the subtree's ids. -/
theorem linkedAt_congr (fuel : Nat) :
    ∀ (h : HeapF) (c : GroupId) (t : GTree) (par : Option String) (H1 H2 : HeapF),
    treeOf h fuel c = some t →
    (∀ y ∈ t.ids, H2 y = H1 y) →
    linkedAt H1 t par → linkedAt H2 t par := by
  induction fuel with
  | zero =>
    intro h c t par H1 H2 ht _ _
    simp [treeOf] at ht
  | succ fuel ih =>
    intro h c t par H1 H2 ht hagree hl
    obtain ⟨g, cs, hg, hcs, rfl⟩ := treeOf_succ_elim ht
    rw [linkedAt_iff] at hl ⊢
    refine ⟨?_, ?_⟩
    · rw [hagree _ (GTree.id_mem_ids _)]
      exact hl.1
    · show linkedAtList H2 cs c
      have hll : linkedAtList H1 cs c := hl.2
      have hagree' : ∀ y ∈ GTree.idsList cs, H2 y = H1 y := by
        intro y hy
        apply hagree
        rw [GTree.ids_eq]
        exact List.mem_cons_of_mem _ hy
      have hforest : ∀ (cl : List GTree),
          (∀ tc ∈ cl, ∃ c', treeOf h fuel c' = some tc) →
          (∀ y ∈ GTree.idsList cl, H2 y = H1 y) →
          linkedAtList H1 cl c → linkedAtList H2 cl c := by
        intro cl
        induction cl with
        | nil =>
          intro _ _ _
          exact trivial
        | cons tc cl ihl =>
          intro hcert hag hll1
          obtain ⟨c', hc'⟩ := hcert tc (List.mem_cons_self tc cl)
          refine ⟨ih h c' tc (some c) H1 H2 hc'
              (fun y hy => hag y (by rw [GTree.idsList, List.mem_append]; exact Or.inl hy))
              hll1.1,
            ihl (fun tc' h' => hcert tc' (List.mem_cons_of_mem tc h'))
              (fun y hy => hag y (by rw [GTree.idsList, List.mem_append]; exact Or.inr hy))
              hll1.2⟩
      exact hforest cs
        (fun tc htc => (mapM_mem_some _ _ _ hcs tc htc).elim (fun a ha => ⟨a, ha.2⟩))
        hagree' hll

/-- The attach loop of the second load pass: folding `addChildGroup` over
distinct, parentless children appends them all to the parent's child list,
re-points each child's parent reference, and touches nothing else. -/
theorem foldAttachBare (cs : List GroupId) :
    ∀ (h : HeapF) (nid : GroupId) (d : GroupObj),
    h nid = some d →
    cs.Nodup →
    (∀ c ∈ cs, c ≠ nid) →
    (∀ c ∈ cs, c ∉ d.childGroups) →
    (∀ c ∈ cs, ∃ cobj, h c = some cobj ∧ cobj.parentGroup = none) →
    ((cs.foldl (fun hh c => addChildGroup hh nid c) h) nid
        = some { d with childGroups := d.childGroups ++ cs }) ∧
    (∀ c cobj, c ∈ cs → h c = some cobj →
      (cs.foldl (fun hh c => addChildGroup hh nid c) h) c
        = some { cobj with parentGroup := some nid }) ∧
    (∀ x, x ≠ nid → x ∉ cs →
      (cs.foldl (fun hh c => addChildGroup hh nid c) h) x = h x) := by
  induction cs with
  | nil =>
    intro h nid d hd _ _ _ _
    refine ⟨by simpa using hd, ?_, fun x _ _ => rfl⟩
    intro c cobj hc
    simp at hc
  | cons c cs ih =>
    intro h nid d hd hnd hne hnotin hbare
    obtain ⟨cobj, hcobj, hcpar⟩ := hbare c (List.mem_cons_self c cs)
    have hcn : c ≠ nid := hne c (List.mem_cons_self c cs)
    have hspec := addChildGroup_spec_noparent h nid c d cobj hd hcobj
      (hnotin c (List.mem_cons_self c cs)) hcpar (fun hcontra => hcn hcontra.symm)
    have hnotmem : c ∉ cs := (List.nodup_cons.mp hnd).1
    have ihapp := ih (addChildGroup h nid c) nid
      { d with childGroups := d.childGroups ++ [c] } hspec.1
      (List.nodup_cons.mp hnd).2
      (fun c' hc' => hne c' (List.mem_cons_of_mem c hc'))
      (by
        intro c' hc' hmem
        rcases List.mem_append.mp hmem with hmem | hmem
        · exact hnotin c' (List.mem_cons_of_mem c hc') hmem
        · have hc'c : c' = c := by simpa using hmem
          exact hnotmem (hc'c ▸ hc'))
      (by
        intro c' hc'
        obtain ⟨cobj', hcobj', hpar'⟩ := hbare c' (List.mem_cons_of_mem c hc')
        have hc'c : c' ≠ c := fun hcontra => hnotmem (hcontra ▸ hc')
        refine ⟨cobj', ?_, hpar'⟩
        rw [hspec.2.2 c' (hne c' (List.mem_cons_of_mem c hc')) hc'c]
        exact hcobj')
    rw [List.foldl_cons]
    refine ⟨?_, ?_, ?_⟩
    · rw [ihapp.1]
      simp
    · intro c' cobj' hc' hcobj'
      rcases List.mem_cons.mp hc' with heq | htail
      · subst heq
        have : cobj' = cobj := Option.some.inj (hcobj'.symm.trans hcobj)
        subst this
        rw [ihapp.2.2 c' hcn hnotmem]
        exact hspec.2.1
      · have hc'c : c' ≠ c := fun hcontra => hnotmem (hcontra ▸ htail)
        refine ihapp.2.1 c' cobj' htail ?_
        rw [hspec.2.2 c' (hne c' (List.mem_cons_of_mem c htail)) hc'c]
        exact hcobj'
    · intro x hxn hxcs
      have hxc : x ≠ c := fun hcontra => hxcs (hcontra ▸ List.mem_cons_self c cs)
      have hxcs' : x ∉ cs := fun hcontra => hxcs (List.mem_cons_of_mem c hcontra)
      rw [ihapp.2.2 x hxn hxcs', hspec.2.2 x hxn hxc]

/-- Every root of a bare forest is a parentless heap object. -/
theorem bareAtList_roots {H : HeapF} {cl : List GTree} (hb : bareAtList H cl) :
    ∀ c ∈ cl.map GTree.id, ∃ cobj, H c = some cobj ∧ cobj.parentGroup = none := by
  intro c hc
  obtain ⟨tc, htc, rfl⟩ := List.mem_map.mp hc
  have hm := bareAtList_mem cl hb tc htc
  rw [bareAt_iff] at hm
  exact ⟨_, hm.1, rfl⟩

theorem idsList_eq_join (cl : List GTree) :
    GTree.idsList cl = (cl.map GTree.ids).flatten := by
  induction cl with
  | nil => rfl
  | cons tc cl ih =>
    simp only [GTree.idsList, List.map_cons, List.flatten_cons, ih]

/-- A member tree of a duplicate-free forest has duplicate-free ids. -/
theorem ids_nodup_of_mem {cl : List GTree} {tc : GTree} (hnd : (GTree.idsList cl).Nodup)
    (htc : tc ∈ cl) : tc.ids.Nodup := by
  rw [idsList_eq_join, List.nodup_flatten] at hnd
  exact hnd.1 tc.ids (List.mem_map_of_mem GTree.ids htc)

/-- Distinct member trees of a duplicate-free forest have disjoint ids. -/
theorem ids_disjoint_of_ne {cl : List GTree} {t1 t2 : GTree} (hnd : (GTree.idsList cl).Nodup)
    (h1 : t1 ∈ cl) (h2 : t2 ∈ cl) (hne : t1 ≠ t2) :
    ∀ y ∈ t1.ids, y ∉ t2.ids := by
  rw [idsList_eq_join, List.nodup_flatten] at hnd
  have hpw : List.Pairwise (fun a b => List.Disjoint a.ids b.ids) cl :=
    List.pairwise_map.mp hnd.2
  have hsym : Symmetric (fun (a b : GTree) => List.Disjoint a.ids b.ids) :=
    fun a b hab => hab.symm
  exact fun y hy hy2 => (hpw.forall hsym h1 h2 hne) hy hy2

/-- In a duplicate-free forest, an id strictly below a member tree never
names a root of the forest. -/
theorem child_ids_not_root {cl : List GTree} (hnd : (GTree.idsList cl).Nodup) :
    ∀ tc ∈ cl, ∀ y ∈ GTree.idsList tc.children, y ∉ cl.map GTree.id := by
  intro tc htc y hy hmem
  obtain ⟨tc', htc', hid'⟩ := List.mem_map.mp hmem
  by_cases heq : tc' = tc
  · subst heq
    have hsub : tc'.ids.Nodup := ids_nodup_of_mem hnd htc'
    rw [GTree.ids_eq, List.nodup_cons] at hsub
    rw [← hid'] at hy
    exact hsub.1 hy
  · have hy1 : y ∈ tc'.ids := by
      rw [← hid']
      exact GTree.id_mem_ids tc'
    have hy2 : y ∈ tc.ids := by
      rw [GTree.ids_eq]
      exact List.mem_cons_of_mem _ hy
    exact ids_disjoint_of_ne hnd htc' htc heq y hy1 hy2

end FileFocus

namespace FileFocus

theorem recordOfTree_childGroups (i n : String) (rs : List Uri) (cs : List GTree)
    (par : Option String) :
    (recordOfTree (.node i n rs cs) par).childGroups
      = if (recordOfTreeList cs i).isEmpty then none
        else some (recordOfTreeList cs i) := rfl

/-- Reduction of a second-pass step whose guard lookup succeeds. -/
theorem pass2Step_some (Hh : HeapF) (rts : List GroupId) (k : String) (r : GroupRecord)
    (o : GroupObj) (hguard : Hh k = some o) :
    pass2Step (Hh, rts) (k, r)
      = ((match r.childGroups with
          | some crs => crs.foldl (fun hh cr => addChildGroup hh k cr.id) Hh
          | none => Hh),
         if r.parentId = none then rts ++ [k] else rts) := by
  simp only [pass2Step, hguard]

/-- `rootBare` only depends on the heap at the subtree's ids. -/
theorem rootBare_congr (fuel : Nat) (h : HeapF) (c : GroupId) (t : GTree) (par : Option String)
    (H1 H2 : HeapF) (hcert : treeOf h fuel c = some t)
    (hagree : ∀ y ∈ t.ids, H2 y = H1 y) (hrb : rootBare H1 t par) : rootBare H2 t par := by
  cases fuel with
  | zero => simp [treeOf] at hcert
  | succ fuel =>
    obtain ⟨g, cs, hg, hcs, rfl⟩ := treeOf_succ_elim hcert
    rw [rootBare_iff] at hrb ⊢
    refine ⟨?_, ?_⟩
    · rw [hagree _ (GTree.id_mem_ids _)]
      exact hrb.1
    · show bareAtList H2 cs
      exact bareAtList_congr fuel h cs H1 H2
        (fun tc htc => (mapM_mem_some _ _ _ hcs tc htc).elim (fun a ha => ⟨a, ha.2⟩))
        (fun y hy => hagree y (by rw [GTree.ids_eq]; exact List.mem_cons_of_mem _ hy))
        hrb.2

/-- A bare subtree whose root has been attached below `gid` (parent set,
own child links still pending, descendants untouched) is `rootBare`. -/
theorem rootBare_shift (fuel : Nat) (h : HeapF) (c : GroupId) (t : GTree) (gid : GroupId)
    (H H1 : HeapF) (hcert : treeOf h fuel c = some t)
    (hbare : bareAt H t)
    (hroot : H1 t.id = some { name := t.name, readonly := false, resources := t.resources,
                              childGroups := [], parentGroup := some gid })
    (hagree : ∀ y ∈ GTree.idsList t.children, H1 y = H y) :
    rootBare H1 t (some gid) := by
  cases fuel with
  | zero => simp [treeOf] at hcert
  | succ fuel =>
    obtain ⟨g, cs, hg, hcs, rfl⟩ := treeOf_succ_elim hcert
    rw [rootBare_iff]
    refine ⟨hroot, ?_⟩
    have hch := (bareAt_iff H _).mp hbare
    show bareAtList H1 cs
    exact bareAtList_congr fuel h cs H H1
      (fun tc htc => (mapM_mem_some _ _ _ hcs tc htc).elim (fun a ha => ⟨a, ha.2⟩))
      (fun y hy => hagree y hy) hch.2

/-- The second load pass over the flattened image of a well-formed subtree
whose root is already attached (and whose descendants are bare) links the
whole subtree, touches no heap entry outside the subtree's ids, and
collects the root as a returned root exactly when its record carries no
parent id. -/
theorem pass2_segment (fuel : Nat) :
    ∀ (h : HeapF) (gid : GroupId) (t : GTree) (par : Option String)
      (H : HeapF) (roots : List GroupId),
    wfSubtree h fuel gid = true →
    treeOf h fuel gid = some t →
    t.ids.Nodup →
    rootBare H t par →
    linkedAt ((flatRecs (recordOfTree t par)).foldl pass2Step (H, roots)).1 t par ∧
    (∀ x, x ∉ t.ids →
      ((flatRecs (recordOfTree t par)).foldl pass2Step (H, roots)).1 x = H x) ∧
    ((flatRecs (recordOfTree t par)).foldl pass2Step (H, roots)).2
      = roots ++ (if par = none then [t.id] else []) := by
  induction fuel with
  | zero =>
    intro h gid t par H roots hw ht _ _
    simp [treeOf] at ht
  | succ fuel ih =>
    intro h gid t par H roots hw ht hnd hrb
    obtain ⟨g, cs, hg, hcs, rfl⟩ := treeOf_succ_elim ht
    obtain ⟨g2, hg2, hdp, hchild⟩ := wf_succ_elim hw
    rw [hg] at hg2
    cases Option.some.inj hg2
    rw [rootBare_iff] at hrb
    have hHgid : H gid = some { name := g.name, readonly := false,
                                resources := g.resources,
                                childGroups := [], parentGroup := par } := hrb.1
    have hrb2 : bareAtList H cs := hrb.2
    rw [GTree.ids_eq, List.nodup_cons] at hnd
    have hndroot : gid ∉ GTree.idsList cs := hnd.1
    have hndcs : (GTree.idsList cs).Nodup := hnd.2
    have hcerts : ∀ tc ∈ cs, treeOf h fuel tc.id = some tc ∧ wfSubtree h fuel tc.id = true := by
      intro tc htc
      obtain ⟨a, hamem, ha⟩ := mapM_mem_some _ _ _ hcs tc htc
      have hid := treeOf_root_id ha
      rw [hid]
      exact ⟨ha, (hchild a hamem).2⟩
    -- reduce the head store entry
    have hmatch : (match (recordOfTree (GTree.node gid g.name g.resources cs) par).childGroups with
        | some crs => crs.foldl (fun hh cr => addChildGroup hh gid cr.id) H
        | none => H)
        = (cs.map GTree.id).foldl (fun hh c => addChildGroup hh gid c) H := by
      rw [← recordOfTreeList_map_id cs gid, List.foldl_map, recordOfTree_childGroups]
      cases hcl : recordOfTreeList cs gid with
      | nil => simp
      | cons r rs => simp
    have hstep : pass2Step (H, roots)
          (gid, recordOfTree (GTree.node gid g.name g.resources cs) par)
        = ((cs.map GTree.id).foldl (fun hh c => addChildGroup hh gid c) H,
           if par = none then roots ++ [gid] else roots) := by
      rw [pass2Step_some H roots gid _ _ hHgid, hmatch, recordOfTree_parentId]
    -- the attach loop
    have hattach := foldAttachBare (cs.map GTree.id) H gid
      { name := g.name, readonly := false, resources := g.resources,
        childGroups := [], parentGroup := par }
      hHgid (map_id_nodup hndcs)
      (by
        intro c hc heq
        have hmem := map_id_subset_idsList cs c hc
        rw [heq] at hmem
        exact hndroot hmem)
      (by
        intro c hc hmem
        simp at hmem)
      (bareAtList_roots hrb2)
    -- the members of the forest are rootBare under the attached heap
    have hrbs : ∀ tc ∈ cs, rootBare
        ((cs.map GTree.id).foldl (fun hh c => addChildGroup hh gid c) H) tc (some gid) := by
      intro tc htc
      have hbtc := bareAtList_mem cs hrb2 tc htc
      have hbroot := (bareAt_iff H tc).mp hbtc
      have hH1 := hattach.2.1 tc.id _ (List.mem_map_of_mem GTree.id htc) hbroot.1
      refine rootBare_shift fuel h tc.id tc gid H _ (hcerts tc htc).1 hbtc hH1 ?_
      intro y hy
      have hyids : y ∈ tc.ids := by
        rw [GTree.ids_eq]
        exact List.mem_cons_of_mem _ hy
      refine hattach.2.2 y ?_ ?_
      · intro heq
        rw [heq] at hyids
        exact hndroot (mem_idsList_of_mem htc gid hyids)
      · exact child_ids_not_root hndcs tc htc y hy
    -- the forest fold
    have hforest : ∀ (cl : List GTree) (H' : HeapF) (rts : List GroupId),
        (∀ tc ∈ cl, treeOf h fuel tc.id = some tc ∧ wfSubtree h fuel tc.id = true) →
        (GTree.idsList cl).Nodup →
        (∀ tc ∈ cl, rootBare H' tc (some gid)) →
        linkedAtList
          ((flatRecsList (recordOfTreeList cl gid)).foldl pass2Step (H', rts)).1 cl gid ∧
        (∀ x, x ∉ GTree.idsList cl →
          ((flatRecsList (recordOfTreeList cl gid)).foldl pass2Step (H', rts)).1 x = H' x) ∧
        ((flatRecsList (recordOfTreeList cl gid)).foldl pass2Step (H', rts)).2 = rts := by
      intro cl
      induction cl with
      | nil =>
        intro H' rts _ _ _
        exact ⟨trivial, fun x _ => rfl, rfl⟩
      | cons tc cl ihl =>
        intro H' rts hcert hndl hrb'
        obtain ⟨hctc, hwtc⟩ := hcert tc (List.mem_cons_self tc cl)
        rw [GTree.idsList, List.nodup_append] at hndl
        obtain ⟨hnd1, hnd2, hdisj12⟩ := hndl
        simp only [recordOfTreeList, flatRecsList_cons, List.foldl_append]
        have hseg := ih h tc.id tc (some gid) H' rts hwtc hctc hnd1
          (hrb' tc (List.mem_cons_self tc cl))
        have hsegroots : ((flatRecs (recordOfTree tc (some gid))).foldl
            pass2Step (H', rts)).2 = rts := by
          rw [hseg.2.2]
          simp
        have hrest := ihl
          ((flatRecs (recordOfTree tc (some gid))).foldl pass2Step (H', rts)).1
          ((flatRecs (recordOfTree tc (some gid))).foldl pass2Step (H', rts)).2
          (fun tc' h' => hcert tc' (List.mem_cons_of_mem tc h'))
          hnd2
          (by
            intro tc' htc'
            refine rootBare_congr fuel h tc'.id tc' (some gid) H' _
              (hcert tc' (List.mem_cons_of_mem tc htc')).1 ?_
              (hrb' tc' (List.mem_cons_of_mem tc htc'))
            intro y hy
            exact hseg.2.1 y (fun hy2 => hdisj12 hy2 (mem_idsList_of_mem htc' y hy)))
        have hrest1 : linkedAtList ((flatRecsList (recordOfTreeList cl gid)).foldl pass2Step
            ((flatRecs (recordOfTree tc (some gid))).foldl pass2Step (H', rts))).1 cl gid :=
          hrest.1
        have hrest2 : ∀ x, x ∉ GTree.idsList cl →
            ((flatRecsList (recordOfTreeList cl gid)).foldl pass2Step
              ((flatRecs (recordOfTree tc (some gid))).foldl pass2Step (H', rts))).1 x
            = ((flatRecs (recordOfTree tc (some gid))).foldl pass2Step (H', rts)).1 x :=
          hrest.2.1
        have hrest3 : ((flatRecsList (recordOfTreeList cl gid)).foldl pass2Step
              ((flatRecs (recordOfTree tc (some gid))).foldl pass2Step (H', rts))).2
            = ((flatRecs (recordOfTree tc (some gid))).foldl pass2Step (H', rts)).2 :=
          hrest.2.2
        refine ⟨⟨?_, hrest1⟩, ?_, ?_⟩
        · refine linkedAt_congr fuel h tc.id tc (some gid) _ _ hctc ?_ hseg.1
          intro y hy
          exact hrest2 y (fun hy2 => hdisj12 hy hy2)
        · intro x hx
          rw [GTree.idsList, List.mem_append] at hx
          push_neg at hx
          rw [hrest2 x hx.2]
          exact hseg.2.1 x hx.1
        · rw [hrest3]
          exact hsegroots
    have hforestapp := hforest cs
      ((cs.map GTree.id).foldl (fun hh c => addChildGroup hh gid c) H)
      (if par = none then roots ++ [gid] else roots)
      hcerts hndcs hrbs
    rw [flatRecs_node, List.foldl_cons, hstep]
    refine ⟨?_, ?_, ?_⟩
    · rw [linkedAt_iff]
      constructor
      · have hfr : ((flatRecsList (recordOfTreeList cs gid)).foldl pass2Step
            ((cs.map GTree.id).foldl (fun hh c => addChildGroup hh gid c) H,
             if par = none then roots ++ [gid] else roots)).1 gid
            = ((cs.map GTree.id).foldl (fun hh c => addChildGroup hh gid c) H) gid :=
          hforestapp.2.1 gid hndroot
        have hval : ((flatRecsList (recordOfTreeList cs gid)).foldl pass2Step
            ((cs.map GTree.id).foldl (fun hh c => addChildGroup hh gid c) H,
             if par = none then roots ++ [gid] else roots)).1 gid
            = some { name := g.name, readonly := false, resources := g.resources,
                     childGroups := cs.map GTree.id, parentGroup := par } := by
          rw [hfr, hattach.1]
          simp
        exact hval
      · show linkedAtList _ cs gid
        exact hforestapp.1
    · intro x hx
      rw [GTree.ids_eq, List.mem_cons] at hx
      push_neg at hx
      rw [hforestapp.2.1 x hx.2]
      exact hattach.2.2 x hx.1
        (fun hmem => hx.2 (map_id_subset_idsList cs x hmem))
    · rw [hforestapp.2.2]
      cases par with
      | none => simp [GTree.id]
      | some p => simp [GTree.id]
end FileFocus

namespace FileFocus

/-- A fully linked heap reproduces the extracted tree (the fuel bound is
inherited from the original extraction). -/
theorem treeOf_of_linkedAt (fuel : Nat) :
    ∀ (h H : HeapF) (gid : GroupId) (t : GTree) (par : Option String),
    treeOf h fuel gid = some t →
    linkedAt H t par →
    treeOf H fuel gid = some t := by
  induction fuel with
  | zero =>
    intro h H gid t par ht _
    simp [treeOf] at ht
  | succ fuel ih =>
    intro h H gid t par ht hl
    obtain ⟨g, cs, hg, hcs, rfl⟩ := treeOf_succ_elim ht
    rw [linkedAt_iff] at hl
    have hroot : H gid = some { name := g.name, readonly := false, resources := g.resources,
                                childGroups := cs.map GTree.id, parentGroup := par } := hl.1
    have hll : linkedAtList H cs gid := hl.2
    have hmem : ∀ (cl : List GTree), linkedAtList H cl gid →
        ∀ tc ∈ cl, linkedAt H tc (some gid) := by
      intro cl
      induction cl with
      | nil =>
        intro _ tc htc
        cases htc
      | cons a cl ihl =>
        intro hll' tc htc
        rcases List.mem_cons.mp htc with rfl | h'
        · exact hll'.1
        · exact ihl hll'.2 tc h'
    have hkids : ∀ tc ∈ cs, treeOf H fuel tc.id = some tc := by
      intro tc htc
      obtain ⟨c, hcmem, hc⟩ := mapM_mem_some _ _ _ hcs tc htc
      have hid := treeOf_root_id hc
      rw [hid]
      exact ih h H c tc (some gid) hc (hmem cs hll tc htc)
    have hmapM : (cs.map GTree.id).mapM (treeOf H fuel) = some cs :=
      mapM_of_forall_id _ cs hkids
    simp only [treeOf, hroot, hmapM, Option.map_some']

/-- The migration returns immediately once the version marker is set. -/
theorem migrateStorageV1_skip (s : Storage) (hver : getNum s "storeversion" 0 > 0) :
    migrateStorageV1 s = s := by
  simp [migrateStorageV1, hver]

theorem getNum_setValue_other (s : Storage) (k : String) (v : StoreVal) (x : String)
    (hne : x ≠ k) (d : Int) : getNum (setValue s k v) x d = getNum s x d := by
  unfold getNum
  rw [lookup_setValue_other s k v x hne]

theorem getGroupMap_setValue (s : Storage) (m : Store) :
    getGroupMap (setValue s "groupmap" (.gmap m)) = m := by
  unfold getGroupMap
  rw [lookup_setValue_same]

end FileFocus

namespace FileFocus

/-! ### Claim C2: the save/load round trip -/

/-- C2.  For every Group tree (a well-formed subtree: every node present,
child parent references consistent, per-node resource paths distinct, all
ids distinct, the root parentless), saving it with StateStorage.saveGroup
into a migrated store with an empty groupmap and then reconstructing with
StateStorage.loadRootNodes yields exactly the original tree: the loaded
roots are precisely the saved root, and the reconstructed object graph
extracts to the identical tree - same ids, same names, same resource
lists in the same order, same parent/child structure. -/
theorem saveGroup_loadRootNodes_roundtrip
    (s : Storage) (h : HeapF) (fuel : Nat) (gid : GroupId) (t : GTree) (g : GroupObj)
    (hver : getNum s "storeversion" 0 > 0)
    (hempty : getGroupMap s = [])
    (hwf : wfSubtree h fuel gid = true)
    (ht : treeOf h fuel gid = some t)
    (hnd : t.ids.Nodup)
    (hg : h gid = some g)
    (hrootpar : g.parentGroup = none) :
    (StateStorage.loadRootNodes (StateStorage.saveGroup s h fuel gid)).2 = [gid] ∧
    treeOf (StateStorage.loadRootNodes (StateStorage.saveGroup s h fuel gid)).1 fuel gid
      = some t := by
  have hcgr : createGroupRecord h fuel gid = some (recordOfTree t none) := by
    have hspec := createGroupRecord_spec fuel h gid t g hwf ht hg
    rw [hrootpar] at hspec
    exact hspec
  have hsave : StateStorage.saveGroup s h fuel gid
      = setValue s "groupmap" (.gmap (flatRecs (recordOfTree t none))) := by
    simp only [StateStorage.saveGroup, hcgr, hempty]
    rw [saveRec_flat fuel h gid t none [] ht hnd (by intro k hk kv hkv; cases hkv)]
    rw [List.nil_append]
  have hver' : getNum (setValue s "groupmap" (.gmap (flatRecs (recordOfTree t none))))
      "storeversion" 0 > 0 := by
    rw [getNum_setValue_other s "groupmap" _ "storeversion" (by decide) 0]
    exact hver
  have hmig : migrateStorageV1 (setValue s "groupmap" (.gmap (flatRecs (recordOfTree t none))))
      = setValue s "groupmap" (.gmap (flatRecs (recordOfTree t none))) :=
    migrateStorageV1_skip _ hver'
  have hload : StateStorage.loadRootNodes (StateStorage.saveGroup s h fuel gid)
      = loadFromStore (flatRecs (recordOfTree t none)) := by
    rw [hsave]
    simp only [StateStorage.loadRootNodes, hmig, getGroupMap_setValue]
  rw [hload]
  have hkeys := flatRecs_ids fuel h gid t none ht
  have hndids : ((flatRecs (recordOfTree t none)).map (fun kv => kv.2.id)).Nodup := by
    rw [hkeys.2]
    exact hnd
  have hbare : bareAt (loadPassOne (flatRecs (recordOfTree t none))) t :=
    pass1_gives_bare fuel h gid t none _ hwf ht hndids (fun kv hkv => hkv)
  have hseg := pass2_segment fuel h gid t none
    (loadPassOne (flatRecs (recordOfTree t none))) []
    hwf ht hnd (rootBare_of_bareAt hbare)
  constructor
  · have h2 : (loadFromStore (flatRecs (recordOfTree t none))).2
        = [] ++ (if (none : Option String) = none then [t.id] else []) := hseg.2.2
    rw [h2]
    simp [treeOf_root_id ht]
  · have h1 : linkedAt (loadFromStore (flatRecs (recordOfTree t none))).1 t none := hseg.1
    exact treeOf_of_linkedAt fuel h _ gid t none ht h1

/-- Witness: the three-node chain heap saved into a migrated empty store
and loaded back reproduces its exact tree, with "g" the only root. -/
theorem saveGroup_loadRootNodes_roundtrip_witness :
    getNum wStoreDone "storeversion" 0 > 0 ∧
    getGroupMap wStoreDone = [] ∧
    wfSubtree chainHeap 3 "g" = true ∧
    treeOf chainHeap 3 "g"
      = some (GTree.node "g" "G" [] [GTree.node "c1" "C1" [] [GTree.node "c2" "C2" [] []]]) ∧
    (GTree.node "g" "G" [] [GTree.node "c1" "C1" []
      [GTree.node "c2" "C2" [] []]]).ids.Nodup ∧
    chainHeap "g" = some { GroupObj.fresh with name := "G", childGroups := ["c1"] } ∧
    ({ GroupObj.fresh with name := "G", childGroups := ["c1"] } : GroupObj).parentGroup
      = none ∧
    ((StateStorage.loadRootNodes (StateStorage.saveGroup wStoreDone chainHeap 3 "g")).2
        = ["g"] ∧
     treeOf (StateStorage.loadRootNodes (StateStorage.saveGroup wStoreDone chainHeap 3 "g")).1
        3 "g"
      = some (GTree.node "g" "G" [] [GTree.node "c1" "C1" []
          [GTree.node "c2" "C2" [] []]])) :=
  ⟨by decide, rfl, rfl, rfl, by decide, rfl, rfl,
    saveGroup_loadRootNodes_roundtrip wStoreDone chainHeap 3 "g"
      (GTree.node "g" "G" [] [GTree.node "c1" "C1" [] [GTree.node "c2" "C2" [] []]])
      { GroupObj.fresh with name := "G", childGroups := ["c1"] }
      (by decide) rfl rfl rfl (by decide) rfl rfl⟩

end FileFocus
